import Mathlib

/-!
NTE: a minimal terminal text editor (`main.go`)

A shallow embedding of the editor's line buffer, cursor and viewport logic.

* Go strings are byte sequences: `len` and slicing count bytes, so a line is a
  list of byte values.
* Go `int` values are modelled as `Int`. Every integer the program computes is
  bounded by the size of the document held in memory, so no wrap-around occurs.
* Indexing and slicing that Go checks at run time return `Option`; `none` is the
  run-time panic.
* The terminal library is external. Its events are modelled by the three fields
  the program reads (`Type`, `Key`, `Ch`), its key constants by an enumeration of
  the pairwise distinct constants the program names.
-/

namespace NTE

/-- A Go string: an immutable sequence of bytes. -/
abbrev GoString := List Nat

/-- Constant `statusLineHeight` of the source. -/
def statusLineHeight : Int := 1

/-! ## Go primitives -/

/-- Go `s[:hi]` on a string or slice: panics unless `0 ≤ hi ≤ len(s)`.
Capacity beyond the length is not modelled: reslicing is checked against the length. -/
def sliceTo {α : Type} (s : List α) (hi : Int) : Option (List α) :=
  if 0 ≤ hi ∧ hi ≤ (s.length : Int) then some (s.take hi.toNat) else none

/-- Go `s[lo:]` on a string or slice: panics unless `0 ≤ lo ≤ len(s)`. -/
def sliceFrom {α : Type} (s : List α) (lo : Int) : Option (List α) :=
  if 0 ≤ lo ∧ lo ≤ (s.length : Int) then some (s.drop lo.toNat) else none

/-- Go `s[i]` read: panics unless `0 ≤ i < len(s)`. -/
def index {α : Type} (s : List α) (i : Int) : Option α :=
  if 0 ≤ i ∧ i < (s.length : Int) then s.get? i.toNat else none

/-- Go `s[i] = v`: panics unless `0 ≤ i < len(s)`. -/
def assign {α : Type} (s : List α) (i : Int) (v : α) : Option (List α) :=
  if 0 ≤ i ∧ i < (s.length : Int) then some (s.set i.toNat v) else none

/-- Go `copy(s[off:], src)` seen from `s`: overwrites `min(len(s) - off, len(src))`
elements of `s` starting at `off` with the first elements of `src`. -/
def copyAt {α : Type} (s : List α) (off : Nat) (src : List α) : List α :=
  let n := min (s.length - off) src.length
  s.take off ++ src.take n ++ s.drop (off + n)

/-- The replacement character U+FFFD in UTF-8. -/
def runeError : GoString := [0xEF, 0xBF, 0xBD]

/-- Go `string(r)` for a rune `r`: the UTF-8 encoding of the code point, and the
encoding of U+FFFD for a surrogate or a value above U+10FFFF. -/
def runeToString (r : Nat) : GoString :=
  if r < 0x80 then [r]
  else if r < 0x800 then [0xC0 + r / 64, 0x80 + r % 64]
  else if 0xD800 ≤ r ∧ r ≤ 0xDFFF then runeError
  else if r < 0x10000 then [0xE0 + r / 4096, 0x80 + (r / 64) % 64, 0x80 + r % 64]
  else if r ≤ 0x10FFFF then
    [0xF0 + r / 262144, 0x80 + (r / 4096) % 64, 0x80 + (r / 64) % 64, 0x80 + r % 64]
  else runeError

/-- Go `string` conversion of a sequence of code points (a string literal made of them). -/
def utf8 (rs : List Nat) : GoString := (rs.map runeToString).flatten

/-! ## Terminal events -/

/-- Event types of the terminal library; the program distinguishes two. -/
inductive EventType
  | EventKey
  | EventError
  | EventOther
  deriving DecidableEq, Repr

/-- Key constants of the terminal library that the program names; every other key
value is `KeyOther` (a character event carries such a key). -/
inductive Key
  | KeyCtrlS
  | KeyCtrlQ
  | KeyBackspace
  | KeyBackspace2
  | KeyEnter
  | KeyTab
  | KeySpace
  | KeyArrowLeft
  | KeyArrowRight
  | KeyArrowUp
  | KeyArrowDown
  | KeyOther
  deriving DecidableEq, Repr

/-- The fields of a terminal event that the program reads. -/
structure Event where
  Typ : EventType
  Key : Key
  Ch : Nat
  deriving DecidableEq, Repr

/-- A named-key event: the library reports it with `Ch == 0`. -/
def keyEvent (k : Key) : Event := ⟨.EventKey, k, 0⟩

/-- A character event carrying code point `c`. -/
def chEvent (c : Nat) : Event := ⟨.EventKey, .KeyOther, c⟩

/-! ## Editor state -/

/-- The anonymous struct `cursor` of `Editor`. -/
structure Cursor where
  x : Int
  y : Int
  deriving DecidableEq, Repr

/-- Type `Editor` of the source. -/
structure Editor where
  filename : GoString
  content : List GoString
  cursor : Cursor
  deriving DecidableEq, Repr

/-- What `Editor.display` puts on the screen: the visible rows and the cursor cell. -/
structure Screen where
  rows : List GoString
  cursorX : Int
  cursorY : Int
  deriving DecidableEq, Repr

/-- The loop `for i := startLine; i < endLine; i++` of `Editor.display`, run for the
`n` iterations it makes from `i`; each iteration reads `e.content[i]`. -/
def displayRows (content : List GoString) (i : Int) : Nat → Option (List GoString)
  | 0 => some []
  | n + 1 =>
    match index content i with
    | none => none
    | some line =>
      match displayRows content (i + 1) n with
      | none => none
      | some rest => some (line :: rest)

/-- Method `Editor.display`. -/
def display (e : Editor) (startLine visibleLines : Int) : Option Screen :=
  let endLine := if startLine + visibleLines > (e.content.length : Int)
    then (e.content.length : Int) else startLine + visibleLines
  match displayRows e.content startLine (endLine - startLine).toNat with
  | none => none
  | some rows => some ⟨rows, e.cursor.x, e.cursor.y - startLine + statusLineHeight⟩

/-- The file named by `filename`, as far as `save` is concerned: whether it can be
created and written, and the bytes it holds. `saves` counts the calls of `save`. -/
structure Disk where
  writable : Bool
  data : GoString
  saves : Nat
  deriving DecidableEq, Repr

/-- The bytes `save` and `writeFile` write: each line followed by `"\n"`. -/
def fileBytes (content : List GoString) : GoString :=
  (content.map (fun line => line ++ [10])).flatten

/-- Method `Editor.save`: `none` is a non-nil error. A failure of the file system
is all-or-nothing here; a partial write is not modelled. -/
def save (e : Editor) (d : Disk) : Option Disk :=
  if d.writable then some { d with data := fileBytes e.content, saves := d.saves + 1 }
  else none

/-- The local state of `Editor.run` in its main loop. `pending` holds the `q` event whose
confirmation is being awaited (the nested `PollEvent` at the confirmation prompt). -/
structure Session where
  e : Editor
  startLine : Int
  visibleLines : Int
  disk : Disk
  pending : Option Event
  deriving DecidableEq, Repr

/-- How one poll of the main loop ends. -/
inductive Outcome
  | running (s : Session)
  | terminated (s : Session)
  | failed (s : Session)
  | panicked
  deriving DecidableEq, Repr

/-- The session an outcome leaves behind; a panic leaves none. -/
def Outcome.session? : Outcome → Option Session
  | .running s => some s
  | .terminated s => some s
  | .failed s => some s
  | .panicked => none

/-! ## The key handlers of `Editor.run` -/

/-- Branch `ev.Ch == '\n'` of `Editor.run`. -/
def newlineCh (e : Editor) : Option Editor := do
  let pre ← sliceTo e.content (e.cursor.y + 1)
  let c1 := pre ++ [[]]
  let _dst ← sliceFrom c1 (e.cursor.y + 2)
  let src ← sliceFrom c1 (e.cursor.y + 1)
  let c2 := copyAt c1 (e.cursor.y + 2).toNat src
  let line ← index c2 e.cursor.y
  let rest ← sliceFrom line e.cursor.x
  let c3 ← assign c2 (e.cursor.y + 1) rest
  let line' ← index c3 e.cursor.y
  let first ← sliceTo line' e.cursor.x
  let c4 ← assign c3 e.cursor.y first
  pure { e with content := c4, cursor := ⟨0, e.cursor.y + 1⟩ }

/-- The statement `e.content[y] = e.content[y][:x] + str + e.content[y][x:]; e.cursor.x++`,
which the source has for `string(ev.Ch)`, for `"\t"` and for `" "`. -/
def insertAtCursor (e : Editor) (str : GoString) : Option Editor := do
  let line ← index e.content e.cursor.y
  let first ← sliceTo line e.cursor.x
  let rest ← sliceFrom line e.cursor.x
  let c ← assign e.content e.cursor.y (first ++ str ++ rest)
  pure { e with content := c, cursor := ⟨e.cursor.x + 1, e.cursor.y⟩ }

/-- Case `KeyBackspace, KeyBackspace2` of `Editor.run`. -/
def backspace (e : Editor) : Option Editor :=
  if e.cursor.x > 0 then do
    let line ← index e.content e.cursor.y
    let first ← sliceTo line (e.cursor.x - 1)
    let rest ← sliceFrom line e.cursor.x
    let c ← assign e.content e.cursor.y (first ++ rest)
    pure { e with content := c, cursor := ⟨e.cursor.x - 1, e.cursor.y⟩ }
  else if e.cursor.y > 0 then do
    let prev ← index e.content (e.cursor.y - 1)
    let prevLineLen : Int := prev.length
    let cur ← index e.content e.cursor.y
    let c1 ← assign e.content (e.cursor.y - 1) (prev ++ cur)
    let pre ← sliceTo c1 e.cursor.y
    let post ← sliceFrom c1 (e.cursor.y + 1)
    pure { e with content := pre ++ post, cursor := ⟨prevLineLen, e.cursor.y - 1⟩ }
  else pure e

/-- Case `KeyEnter` of `Editor.run`. -/
def enterKey (e : Editor) : Option Editor := do
  let currentLine ← index e.content e.cursor.y
  let newLine ← sliceFrom currentLine e.cursor.x
  let first ← sliceTo currentLine e.cursor.x
  let c1 ← assign e.content e.cursor.y first
  let post ← sliceFrom c1 (e.cursor.y + 1)
  let pre ← sliceTo c1 (e.cursor.y + 1)
  pure { e with content := pre ++ ([newLine] ++ post), cursor := ⟨0, e.cursor.y + 1⟩ }

/-- The statement `if ev.Ch != 0 { ... } else { switch ev.Key { ... } }` of `Editor.run`. -/
def editKey (e : Editor) (ev : Event) : Option Editor :=
  if ev.Ch ≠ 0 then
    if ev.Ch = 10 then newlineCh e
    else insertAtCursor e (runeToString ev.Ch)
  else
    match ev.Key with
    | .KeyBackspace => backspace e
    | .KeyBackspace2 => backspace e
    | .KeyEnter => enterKey e
    | .KeyTab => insertAtCursor e [9]
    | .KeySpace => insertAtCursor e [32]
    | _ => some e

/-- Case `KeyArrowLeft` of `Editor.run`. -/
def arrowLeft (e : Editor) : Option Editor :=
  if e.cursor.x > 0 then some { e with cursor := ⟨e.cursor.x - 1, e.cursor.y⟩ }
  else if e.cursor.y > 0 then
    match index e.content (e.cursor.y - 1) with
    | none => none
    | some line => some { e with cursor := ⟨line.length, e.cursor.y - 1⟩ }
  else some e

/-- Case `KeyArrowRight` of `Editor.run`. -/
def arrowRight (e : Editor) : Option Editor :=
  match index e.content e.cursor.y with
  | none => none
  | some line =>
    if e.cursor.x < (line.length : Int) then some { e with cursor := ⟨e.cursor.x + 1, e.cursor.y⟩ }
    else if e.cursor.y < (e.content.length : Int) - 1 then
      some { e with cursor := ⟨0, e.cursor.y + 1⟩ }
    else some e

/-- Case `KeyArrowUp` of `Editor.run`. -/
def arrowUp (s : Session) : Session :=
  if s.e.cursor.y > 0 then
    let s1 := { s with e := { s.e with cursor := ⟨s.e.cursor.x, s.e.cursor.y - 1⟩ } }
    if s1.startLine > 0 ∧ s1.e.cursor.y < s1.startLine then
      { s1 with startLine := s1.startLine - 1 }
    else s1
  else if s.startLine > 0 then { s with startLine := s.startLine - 1 }
  else s

/-- Case `KeyArrowDown` of `Editor.run`. -/
def arrowDown (s : Session) : Session :=
  if s.e.cursor.y < (s.e.content.length : Int) - 1 then
    let s1 := { s with e := { s.e with cursor := ⟨s.e.cursor.x, s.e.cursor.y + 1⟩ } }
    if s1.e.cursor.y ≥ s1.startLine + s1.visibleLines then
      { s1 with startLine := s1.startLine + 1 }
    else s1
  else if s.startLine < (s.e.content.length : Int) - s.visibleLines then
    { s with startLine := s.startLine + 1 }
  else s

/-- The final `switch ev.Key` of the key-event case of `Editor.run` (the arrow keys). -/
def moveKey (s : Session) (ev : Event) : Option Session :=
  match ev.Key with
  | .KeyArrowLeft => (arrowLeft s.e).map (fun e => { s with e := e })
  | .KeyArrowRight => (arrowRight s.e).map (fun e => { s with e := e })
  | .KeyArrowUp => some (arrowUp s)
  | .KeyArrowDown => some (arrowDown s)
  | _ => some s

/-- The part of the key-event case that follows the command-key switch: the edit
statement, then the arrow-key switch. -/
def applyKey (s : Session) (ev : Event) : Outcome :=
  match editKey s.e ev with
  | none => .panicked
  | some e =>
    match moveKey { s with e := e, pending := none } ev with
    | none => .panicked
    | some s' => .running s'

/-- The command-key switch of the key-event case, entered with event `ev`. -/
def commandKey (s : Session) (ev : Event) : Outcome :=
  match ev.Key with
  | .KeyCtrlS =>
    match save s.e s.disk with
    | none => .failed s
    | some d => applyKey { s with disk := d } ev
  | .KeyCtrlQ => .terminated s
  | _ =>
    if ev.Ch = 113 then
      match display s.e s.startLine s.visibleLines with
      | none => .panicked
      | some _ => .running { s with pending := some ev }
    else applyKey s ev

/-- One `PollEvent` of `Editor.run` and what the program does with the event, up to the
next `PollEvent`. In the main loop the poll is preceded by the redraw; at the confirmation
prompt the polled event decides between leaving the loop and resuming with the `q` event. -/
def step (s : Session) (ev : Event) : Outcome :=
  match s.pending with
  | some ev1 =>
    if ev.Typ = .EventKey ∧ ev.Ch = 113 then .terminated { s with pending := none }
    else applyKey s ev1
  | none =>
    match display s.e s.startLine s.visibleLines with
    | none => .panicked
    | some _ =>
      match ev.Typ with
      | .EventKey => commandKey s ev
      | .EventError => .failed s
      | .EventOther => .running s

/-- The main loop of `Editor.run` fed with the events `PollEvent` returns, in order. -/
def runLoop : Session → List Event → Outcome
  | s, [] => .running s
  | s, ev :: evs =>
    match step s ev with
    | .running s' => runLoop s' evs
    | o => o

/-- The state in which `Editor.run` enters its main loop, for a terminal of the given
height: `e.cursor.y = 0`, `visibleLines := height - statusLineHeight`, `startLine := 0`,
and an empty document replaced by one empty line. -/
def start (e : Editor) (height : Int) (d : Disk) : Session :=
  let e1 := { e with cursor := ⟨e.cursor.x, 0⟩ }
  let e2 := if e1.content.length = 0 then { e1 with content := e1.content ++ [[]] } else e1
  { e := e2, startLine := 0, visibleLines := height - statusLineHeight, disk := d, pending := none }

/-- The editor `main` builds from the lines it loaded: `Editor{filename, content}`. -/
def newEditor (filename : GoString) (content : List GoString) : Editor :=
  { filename := filename, content := content, cursor := ⟨0, 0⟩ }

/-- The edit statement of `Editor.run` applied to character events carrying the code
points `cs`, one after another. -/
def insertChars : Editor → List Nat → Option Editor
  | e, [] => some e
  | e, c :: cs =>
    match editKey e (chEvent c) with
    | none => none
    | some e' => insertChars e' cs

/-- The cursor is within the document: `0 ≤ y < len(content)` and `0 ≤ x ≤ len(content[y])`. -/
def InBounds (e : Editor) : Prop :=
  0 ≤ e.cursor.y ∧ e.cursor.y < (e.content.length : Int) ∧ 0 ≤ e.cursor.x ∧
    e.cursor.x ≤ ((e.content.getD e.cursor.y.toNat []).length : Int)

instance (e : Editor) : Decidable (InBounds e) := by
  unfold InBounds; infer_instance

/-- The cursor row is one of the visible rows:
`startLine ≤ cursor.y < startLine + visibleLines`. -/
def CursorVisible (s : Session) : Prop :=
  s.startLine ≤ s.e.cursor.y ∧ s.e.cursor.y < s.startLine + s.visibleLines

instance (s : Session) : Decidable (CursorVisible s) := by
  unfold CursorVisible; infer_instance

/-- What the vertical-move induction carries: main-loop phase, the number of visible
rows staying what it was, a non-negative first visible row, and the cursor
row among the visible rows. -/
def VerticalInv (vis : Int) (s : Session) : Prop :=
  s.pending = none ∧ s.visibleLines = vis ∧ 0 ≤ s.startLine ∧ CursorVisible s

/-- An ArrowUp or ArrowDown event. -/
def Vertical (ev : Event) : Prop :=
  ev = keyEvent .KeyArrowUp ∨ ev = keyEvent .KeyArrowDown

/-! ## Files: `readFile`, `writeFile` -/

/-- Constant `bufio.MaxScanTokenSize` of the Go library: the largest buffer of a default
`bufio.Scanner`, which has to hold a line together with its newline. -/
def maxScanTokenSize : Nat := 64 * 1024

/-- Function `dropCR` of the Go library (`bufio`): drops one final `'\r'`. -/
def dropCR (data : GoString) : GoString :=
  if data.getLast? = some 13 then data.dropLast else data

/-- The errors `readFile` returns: the one of `os.Open`, or `bufio.ErrTooLong` from the
scanner. -/
inductive ReadError
  | openFailed
  | tooLong
  deriving DecidableEq, Repr

/-- The loop `for scanner.Scan() { content = append(content, scanner.Text()) }` of
`readFile` over the bytes still to be read, with `cur` the bytes of the current line read
so far. The scanner is the library's default one (split function `ScanLines`): a line ends
at `'\n'`, loses one final `'\r'`, a last line without newline counts when it is not
empty, and a line of `maxScanTokenSize` bytes or more does not fit the buffer and ends the
scan with `ErrTooLong`. The result is the lines appended and `scanner.Err()`. -/
def scanLines : GoString → GoString → List GoString × Option ReadError
  | [], cur =>
    if cur.length ≥ maxScanTokenSize then ([], some .tooLong)
    else if cur = [] then ([], none)
    else ([dropCR cur], none)
  | b :: rest, cur =>
    if cur.length ≥ maxScanTokenSize then ([], some .tooLong)
    else if b = 10 then ((dropCR cur) :: (scanLines rest []).1, (scanLines rest []).2)
    else scanLines rest (cur ++ [b])

/-- Function `readFile` of the source, on the file system's answer for `filename`:
`none` when the file cannot be opened, else its bytes. -/
def readFile (file : Option GoString) : List GoString × Option ReadError :=
  match file with
  | none => ([], some .openFailed)
  | some data => scanLines data []

/-- Function `writeFile` of the source: `none` is a non-nil error; like `save`, a failure
is all-or-nothing here. -/
def writeFile (content : List GoString) (d : Disk) : Option Disk :=
  if d.writable then some { d with data := fileBytes content } else none

/-- The file content ends with a newline character. -/
def EndsWithNewline (data : GoString) : Prop := data.getLast? = some 10

/-- No newline of the file content is directly preceded by a carriage return. -/
def NoCRLF (data : GoString) : Prop := ¬ [13, 10] <:+: data

/-- Every line of the file content is shorter than the scanner's token limit: every
stretch of the content without a newline has fewer than `maxScanTokenSize` bytes. -/
def ShortLines (data : GoString) : Prop :=
  ∀ seg : GoString, seg <:+: data → 10 ∉ seg → seg.length < maxScanTokenSize

/-! ## A flat text buffer -/

/-- The document as one text: its lines joined by `'\n'`. -/
def text (d : List GoString) : GoString := List.intercalate [10] d

/-- The text that follows the first line of a document in `text`: each further line
preceded by `'\n'`. -/
def restText (d : List GoString) : GoString := (d.map (fun line => 10 :: line)).flatten

/-- The offset of position `(x, y)` in the text of `d`:
`x + sum over i < y of (len(line i) + 1)`. -/
def off (d : List GoString) (x y : Nat) : Nat :=
  x + ((d.take y).map (fun line => line.length + 1)).sum

/-- The offset of the editor's cursor in the text of its document. -/
def cursorOff (e : Editor) : Nat := off e.content e.cursor.x.toNat e.cursor.y.toNat

/-- Flat buffer: `t` with `c` inserted at offset `o`. -/
def flatInsert (t : GoString) (o : Nat) (c : Nat) : GoString := t.take o ++ c :: t.drop o

/-- Flat buffer: `t` with the position `o` removed. -/
def flatRemove (t : GoString) (o : Nat) : GoString := t.take o ++ t.drop (o + 1)

/-! ## Basic facts about the Go primitives -/

theorem index_natCast {α : Type} (s : List α) (n : Nat) : index s (n : Int) = s.get? n := by
  unfold index
  by_cases h : n < s.length
  · simp [h]
  · have h' : s.length ≤ n := Nat.le_of_not_lt h
    simp [h, h']

theorem sliceTo_natCast {α : Type} (s : List α) (n : Nat) (h : n ≤ s.length) :
    sliceTo s (n : Int) = some (s.take n) := by
  simp [sliceTo, h]

theorem sliceFrom_natCast {α : Type} (s : List α) (n : Nat) (h : n ≤ s.length) :
    sliceFrom s (n : Int) = some (s.drop n) := by
  simp [sliceFrom, h]

theorem assign_natCast {α : Type} (s : List α) (n : Nat) (v : α) (h : n < s.length) :
    assign s (n : Int) v = some (s.set n v) := by
  simp [assign, h]

theorem displayRows_total (content : List GoString) :
    ∀ (n : Nat) (i : Int), 0 ≤ i → i + n ≤ (content.length : Int) →
      ∃ rows, displayRows content i n = some rows := by
  intro n
  induction n with
  | zero => intro i _ _; exact ⟨[], rfl⟩
  | succ k ih =>
    intro i h0 h1
    obtain ⟨rest, hrest⟩ := ih (i + 1) (by omega) (by push_cast at h1 ⊢; omega)
    obtain ⟨j, rfl⟩ := Int.eq_ofNat_of_zero_le h0
    have hj : j < content.length := by push_cast at h1; omega
    have hget : content.get? j = some (content.get ⟨j, hj⟩) := List.get?_eq_get hj
    refine ⟨content.get ⟨j, hj⟩ :: rest, ?_⟩
    simp only [displayRows, index_natCast, hget, hrest]

/-- The redraw cannot panic when the first visible row is not negative. -/
theorem display_total (e : Editor) (startLine visibleLines : Int) (h : 0 ≤ startLine) :
    ∃ scr, display e startLine visibleLines = some scr := by
  unfold display
  have key : ∃ rows, displayRows e.content startLine
      ((if startLine + visibleLines > (e.content.length : Int)
        then (e.content.length : Int) else startLine + visibleLines) - startLine).toNat
        = some rows := by
    rcases Nat.eq_zero_or_pos ((if startLine + visibleLines > (e.content.length : Int)
        then (e.content.length : Int) else startLine + visibleLines) - startLine).toNat with h0 | h0
    · rw [h0]; exact ⟨[], rfl⟩
    · apply displayRows_total _ _ _ h
      split at h0 <;> omega
  obtain ⟨rows, hrows⟩ := key
  simp only [hrows]
  exact ⟨_, rfl⟩

/-- An in-bounds cursor sits on a line of the document, at a position of that line. -/
theorem InBounds.split {e : Editor} (h : InBounds e) :
    ∃ (pre : List GoString) (line : GoString) (post : List GoString) (x : Nat),
      e.content = pre ++ line :: post ∧ e.cursor = ⟨(x : Int), (pre.length : Int)⟩ ∧
        x ≤ line.length := by
  obtain ⟨hy0, hy1, hx0, hx1⟩ := h
  obtain ⟨y, hy⟩ := Int.eq_ofNat_of_zero_le hy0
  obtain ⟨x, hx⟩ := Int.eq_ofNat_of_zero_le hx0
  rw [hy] at hy1 hx1
  rw [hx] at hx1
  have hy2 : y < e.content.length := by exact_mod_cast hy1
  simp only [Int.toNat_ofNat] at hx1
  refine ⟨e.content.take y, e.content.get ⟨y, hy2⟩, e.content.drop (y + 1), x, ?_, ?_, ?_⟩
  · have h1 : e.content.drop y = e.content.get ⟨y, hy2⟩ :: e.content.drop (y + 1) := by
      simp
    rw [← h1, List.take_append_drop]
  · have hl : (e.content.take y).length = y := by
      rw [List.length_take]; omega
    rw [hl]
    cases hc : e.cursor with
    | mk cx cy => rw [hc] at hx hy; simp only at hx hy; rw [hx, hy]
  · have h2 : e.content.getD y [] = e.content.get ⟨y, hy2⟩ := by
      simp [List.getD_eq_getElem?_getD, List.getElem?_eq_getElem hy2]
    rw [h2] at hx1
    exact_mod_cast hx1

/-! ## The handlers on an in-bounds cursor -/

theorem sliceTo_eq {α : Type} (s : List α) (i : Int) (n : Nat) (hi : i = (n : Int))
    (h : n ≤ s.length) : sliceTo s i = some (s.take n) := by
  subst hi; exact sliceTo_natCast s n h

theorem sliceFrom_eq {α : Type} (s : List α) (i : Int) (n : Nat) (hi : i = (n : Int))
    (h : n ≤ s.length) : sliceFrom s i = some (s.drop n) := by
  subst hi; exact sliceFrom_natCast s n h

theorem index_eq {α : Type} (s : List α) (i : Int) (n : Nat) (hi : i = (n : Int)) :
    index s i = s.get? n := by
  subst hi; exact index_natCast s n

theorem assign_eq {α : Type} (s : List α) (i : Int) (n : Nat) (v : α) (hi : i = (n : Int))
    (h : n < s.length) : assign s i v = some (s.set n v) := by
  subst hi; exact assign_natCast s n v h

theorem index_mid {α : Type} (pre : List α) (a : α) (post : List α) :
    index (pre ++ a :: post) (pre.length : Int) = some a := by
  rw [index_natCast, List.get?_eq_getElem?, List.getElem?_append_right (le_refl _)]; simp

theorem assign_mid {α : Type} (pre : List α) (a b : α) (post : List α) :
    assign (pre ++ a :: post) (pre.length : Int) b = some (pre ++ b :: post) := by
  rw [assign_natCast _ _ _ (by simp)]; simp

theorem enterKey_split (fn : GoString) (pre : List GoString) (line : GoString)
    (post : List GoString) (x : Nat) (hx : x ≤ line.length) :
    enterKey ⟨fn, pre ++ line :: post, ⟨(x : Int), (pre.length : Int)⟩⟩ =
      some ⟨fn, pre ++ line.take x :: line.drop x :: post, ⟨0, (pre.length : Int) + 1⟩⟩ := by
  have h2 : sliceFrom line (x : Int) = some (line.drop x) := sliceFrom_natCast _ _ hx
  have h3 : sliceTo line (x : Int) = some (line.take x) := sliceTo_natCast _ _ hx
  have h5 : sliceFrom (pre ++ line.take x :: post) ((pre.length : Int) + 1) = some post := by
    rw [sliceFrom_eq _ _ (pre.length + 1) (by push_cast; rfl) (by simp)]; simp
  have h6 : sliceTo (pre ++ line.take x :: post) ((pre.length : Int) + 1)
      = some (pre ++ [line.take x]) := by
    rw [sliceTo_eq _ _ (pre.length + 1) (by push_cast; rfl) (by simp)]
    simp [List.take_append]
  simp only [enterKey, index_mid, assign_mid, h2, h3, h5, h6, Option.bind_eq_bind,
    Option.some_bind, Option.pure_def, List.append_assoc, List.singleton_append]

theorem backspace_delete (fn : GoString) (pre : List GoString) (line : GoString)
    (post : List GoString) (x : Nat) (hx : x + 1 ≤ line.length) :
    backspace ⟨fn, pre ++ line :: post, ⟨(x : Int) + 1, (pre.length : Int)⟩⟩ =
      some ⟨fn, pre ++ line.eraseIdx x :: post, ⟨(x : Int), (pre.length : Int)⟩⟩ := by
  have e1 : ((x : Int) + 1 - 1) = (x : Int) := by omega
  have hpos : (x : Int) + 1 > 0 := by omega
  have h2 : sliceFrom line ((x : Int) + 1) = some (line.drop (x + 1)) :=
    sliceFrom_eq _ _ (x + 1) (by push_cast; rfl) hx
  have h3 : sliceTo line (x : Int) = some (line.take x) := sliceTo_natCast _ _ (by omega)
  simp only [backspace, hpos, if_true, e1, index_mid, assign_mid, h2, h3, Option.bind_eq_bind,
    Option.some_bind, Option.pure_def, List.eraseIdx_eq_take_drop_succ]

theorem backspace_join (fn : GoString) (pre : List GoString) (prev line : GoString)
    (post : List GoString) :
    backspace ⟨fn, pre ++ prev :: line :: post, ⟨0, (pre.length : Int) + 1⟩⟩ =
      some ⟨fn, pre ++ (prev ++ line) :: post, ⟨(prev.length : Int), (pre.length : Int)⟩⟩ := by
  have e1 : ((pre.length : Int) + 1 - 1) = (pre.length : Int) := by omega
  have hpos : (pre.length : Int) + 1 > 0 := by omega
  have h0 : ¬ ((0 : Int) > 0) := by omega
  have h1 : index (pre ++ prev :: line :: post) ((pre.length : Int) + 1) = some line := by
    rw [index_eq _ _ (pre.length + 1) (by push_cast; rfl), List.get?_eq_getElem?,
      List.getElem?_append_right (Nat.le_succ _)]
    simp
  have h5 : sliceFrom (pre ++ (prev ++ line) :: line :: post) ((pre.length : Int) + 1 + 1)
      = some post := by
    rw [sliceFrom_eq _ _ (pre.length + 2) (by push_cast; omega) (by simp)]; simp
  have h6 : sliceTo (pre ++ (prev ++ line) :: line :: post) ((pre.length : Int) + 1)
      = some (pre ++ [prev ++ line]) := by
    rw [sliceTo_eq _ _ (pre.length + 1) (by push_cast; rfl) (by simp)]
    simp [List.take_append]
  simp only [backspace, h0, if_false, hpos, if_true, e1, index_mid, assign_mid, h1, h5, h6,
    Option.bind_eq_bind, Option.some_bind, Option.pure_def, List.append_assoc,
    List.singleton_append]

theorem backspace_origin (fn : GoString) (content : List GoString) :
    backspace ⟨fn, content, ⟨0, 0⟩⟩ = some ⟨fn, content, ⟨0, 0⟩⟩ := by
  simp [backspace]

/-! ## One poll of the main loop -/

/-- In the main loop, with the redraw possible, a named key other than the two command keys
goes straight to the edit statement and the arrow-key switch. -/
theorem step_keyEvent (s : Session) (hp : s.pending = none) (hs : 0 ≤ s.startLine) (k : Key)
    (h1 : k ≠ .KeyCtrlS) (h2 : k ≠ .KeyCtrlQ) : step s (keyEvent k) = applyKey s (keyEvent k) := by
  obtain ⟨scr, hscr⟩ := display_total s.e s.startLine s.visibleLines hs
  unfold step
  rw [hp]
  simp only [hscr, keyEvent, commandKey]
  cases k <;> simp_all

/-- In the main loop, with the redraw possible, a character other than `q` goes straight to
the edit statement. -/
theorem step_chEvent (s : Session) (hp : s.pending = none) (hs : 0 ≤ s.startLine) (c : Nat)
    (hc : c ≠ 113) : step s (chEvent c) = applyKey s (chEvent c) := by
  obtain ⟨scr, hscr⟩ := display_total s.e s.startLine s.visibleLines hs
  unfold step
  rw [hp]
  simp only [hscr, chEvent, commandKey, hc, if_false]

theorem applyKey_enter (s : Session) (e' : Editor) (h : enterKey s.e = some e') :
    applyKey s (keyEvent .KeyEnter) = .running { s with e := e', pending := none } := by
  simp [applyKey, editKey, keyEvent, moveKey, h]

theorem applyKey_backspace (s : Session) (k : Key) (hk : k = .KeyBackspace ∨ k = .KeyBackspace2)
    (e' : Editor) (h : backspace s.e = some e') :
    applyKey s (keyEvent k) = .running { s with e := e', pending := none } := by
  rcases hk with rfl | rfl <;> simp [applyKey, editKey, keyEvent, moveKey, h]

theorem getElem?_mid {α : Type} (pre : List α) (a : α) (post : List α) :
    (pre ++ a :: post)[pre.length]? = some a := by
  rw [List.getElem?_append_right (le_refl _)]; simp

/-- Inserting one line after `pre` shifts the lines behind it by one. -/
theorem getElem?_after_split {α : Type} (a b c : α) (post : List α) :
    ∀ (pre : List α) (i : Nat), pre.length < i →
      (pre ++ a :: b :: post)[i + 1]? = (pre ++ c :: post)[i]? := by
  intro pre
  induction pre with
  | nil =>
    intro i hi
    cases i with
    | zero => simp at hi
    | succ j => simp
  | cons p ps ih =>
    intro i hi
    cases i with
    | zero => simp at hi
    | succ j =>
      have hj : ps.length < j := by simpa using hi
      simpa using ih j hj

theorem set_mid {α : Type} (pre : List α) (a b : α) (post : List α) :
    (pre ++ a :: post).set pre.length b = pre ++ b :: post := by
  simp

theorem take_before {α : Type} (pre : List α) (post : List α) :
    (pre ++ post).take pre.length = pre := by
  induction pre with
  | nil => simp
  | cons p ps ih => simp

theorem drop_after_two {α : Type} (pre : List α) (a b : α) (post : List α) :
    (pre ++ a :: b :: post).drop (pre.length + 2) = post := by
  induction pre with
  | nil => simp
  | cons p ps ih => simp

/-! ## Character insertion -/

theorem insertAtCursor_split (fn : GoString) (pre : List GoString) (line : GoString)
    (post : List GoString) (x : Nat) (str : GoString) (hx : x ≤ line.length) :
    insertAtCursor ⟨fn, pre ++ line :: post, ⟨(x : Int), (pre.length : Int)⟩⟩ str =
      some ⟨fn, pre ++ (line.take x ++ str ++ line.drop x) :: post,
        ⟨(x : Int) + 1, (pre.length : Int)⟩⟩ := by
  have h2 : sliceFrom line (x : Int) = some (line.drop x) := sliceFrom_natCast _ _ hx
  have h3 : sliceTo line (x : Int) = some (line.take x) := sliceTo_natCast _ _ hx
  simp only [insertAtCursor, index_mid, assign_mid, h2, h3, Option.bind_eq_bind,
    Option.some_bind, Option.pure_def]

/-- Code points with a one-byte encoding, typed at the end of a line, are appended to it
in order, and the column advances by one for each. -/
theorem insertChars_singleByte (fn : GoString) (pre post : List GoString) :
    ∀ (cs : List Nat) (acc : GoString), (∀ c ∈ cs, c ≠ 0 ∧ c ≠ 10 ∧ c < 128) →
      insertChars ⟨fn, pre ++ acc :: post, ⟨(acc.length : Int), (pre.length : Int)⟩⟩ cs =
        some ⟨fn, pre ++ (acc ++ cs) :: post,
          ⟨((acc ++ cs).length : Int), (pre.length : Int)⟩⟩ := by
  intro cs
  induction cs with
  | nil => intro acc _; simp [insertChars]
  | cons c cs ih =>
    intro acc h
    obtain ⟨h0, h10, h128⟩ := h c (List.mem_cons_self _ _)
    have hrune : runeToString c = [c] := by simp [runeToString, h128]
    have hedit : editKey ⟨fn, pre ++ acc :: post, ⟨(acc.length : Int), (pre.length : Int)⟩⟩
        (chEvent c) = some ⟨fn, pre ++ (acc ++ [c]) :: post,
          ⟨((acc ++ [c]).length : Int), (pre.length : Int)⟩⟩ := by
      simp only [editKey, chEvent, ne_eq, h0, not_false_eq_true, if_true, h10, if_false, hrune]
      rw [insertAtCursor_split fn pre acc post acc.length [c] (le_refl _)]
      simp
    have hrest := ih (acc ++ [c]) (fun c' h' => h c' (List.mem_cons_of_mem _ h'))
    simp only [insertChars, hedit, hrest, List.append_assoc, List.singleton_append]

/-! ## Vertical moves and the viewport -/

theorem step_arrowUp (s : Session) (hp : s.pending = none) (hs : 0 ≤ s.startLine) :
    step s (keyEvent .KeyArrowUp) = .running (arrowUp s) := by
  rw [step_keyEvent s hp hs _ (by decide) (by decide)]
  obtain ⟨e, st, vis, disk, pending⟩ := s
  simp only at hp
  subst hp
  simp [applyKey, editKey, keyEvent, moveKey]

theorem step_arrowDown (s : Session) (hp : s.pending = none) (hs : 0 ≤ s.startLine) :
    step s (keyEvent .KeyArrowDown) = .running (arrowDown s) := by
  rw [step_keyEvent s hp hs _ (by decide) (by decide)]
  obtain ⟨e, st, vis, disk, pending⟩ := s
  simp only at hp
  subst hp
  simp [applyKey, editKey, keyEvent, moveKey]

theorem arrowUp_inv (vis : Int) (s : Session) (h : VerticalInv vis s) :
    VerticalInv vis (arrowUp s) := by
  obtain ⟨hp, hvis, hs, h1, h2⟩ := h
  unfold arrowUp
  simp only
  split
  · split
    · refine ⟨hp, hvis, ?_, ?_, ?_⟩ <;> simp only <;> omega
    · refine ⟨hp, hvis, hs, ?_, ?_⟩ <;> simp only <;> omega
  · split
    · omega
    · exact ⟨hp, hvis, hs, h1, h2⟩

theorem arrowDown_inv (vis : Int) (s : Session) (h : VerticalInv vis s) :
    VerticalInv vis (arrowDown s) := by
  obtain ⟨hp, hvis, hs, h1, h2⟩ := h
  unfold arrowDown
  simp only
  split
  · split
    · refine ⟨hp, hvis, ?_, ?_, ?_⟩ <;> simp only <;> omega
    · refine ⟨hp, hvis, hs, ?_, ?_⟩ <;> simp only <;> omega
  · split
    · omega
    · exact ⟨hp, hvis, hs, h1, h2⟩

theorem runLoop_vertical (vis : Int) :
    ∀ (evs : List Event) (s : Session), VerticalInv vis s → (∀ ev ∈ evs, Vertical ev) →
      ∃ s', runLoop s evs = .running s' ∧ VerticalInv vis s' := by
  intro evs
  induction evs with
  | nil => intro s hs _; exact ⟨s, rfl, hs⟩
  | cons ev evs ih =>
    intro s hs hev
    have hrest : ∀ ev' ∈ evs, Vertical ev' := fun ev' h' => hev ev' (List.mem_cons_of_mem _ h')
    rcases hev ev (List.mem_cons_self _ _) with rfl | rfl
    · obtain ⟨s', h1, h2⟩ := ih (arrowUp s) (arrowUp_inv vis s hs) hrest
      exact ⟨s', by simp only [runLoop, step_arrowUp s hs.1 hs.2.2.1, h1], h2⟩
    · obtain ⟨s', h1, h2⟩ := ih (arrowDown s) (arrowDown_inv vis s hs) hrest
      exact ⟨s', by simp only [runLoop, step_arrowDown s hs.1 hs.2.2.1, h1], h2⟩

theorem start_verticalInv (e : Editor) (height : Int) (d : Disk)
    (hv : 0 < height - statusLineHeight) :
    VerticalInv (height - statusLineHeight) (start e height d) := by
  refine ⟨rfl, rfl, le_refl _, ?_, ?_⟩
  · unfold start; simp only; split <;> simp
  · unfold start; simp only; split <;> simpa using hv

/-! ## The first visible row never becomes negative -/

theorem arrowUp_startLine (s : Session) (h : 0 ≤ s.startLine) : 0 ≤ (arrowUp s).startLine := by
  unfold arrowUp
  simp only
  split
  · split <;> first | omega | (simp only; omega)
  · split <;> first | omega | (simp only; omega)

theorem arrowDown_startLine (s : Session) (h : 0 ≤ s.startLine) :
    0 ≤ (arrowDown s).startLine := by
  unfold arrowDown
  simp only
  split
  · split <;> first | omega | (simp only; omega)
  · split <;> first | omega | (simp only; omega)

/-- Every branch of `arrowDown` that raises `startLine` leaves it at most
`len(content) - visibleLines`. -/
theorem arrowDown_bound (s : Session) (h : s.startLine < (arrowDown s).startLine) :
    (arrowDown s).startLine ≤
      ((arrowDown s).e.content.length : Int) - (arrowDown s).visibleLines := by
  by_cases h1 : s.e.cursor.y < (s.e.content.length : Int) - 1
  · by_cases h2 : s.e.cursor.y + 1 ≥ s.startLine + s.visibleLines
    · simp only [arrowDown, h1, h2, if_true]
      omega
    · simp only [arrowDown, h1, h2, if_true, if_false] at h
      omega
  · by_cases h3 : s.startLine < (s.e.content.length : Int) - s.visibleLines
    · simp only [arrowDown, h1, h3, if_true, if_false]
      omega
    · simp only [arrowDown, h1, h3, if_false] at h
      omega

theorem moveKey_startLine (s s' : Session) (ev : Event) (h : moveKey s ev = some s')
    (hs : 0 ≤ s.startLine) : 0 ≤ s'.startLine := by
  unfold moveKey at h
  split at h
  · cases hl : arrowLeft s.e with
    | none => simp [hl] at h
    | some e' => simp [hl] at h; subst h; exact hs
  · cases hr : arrowRight s.e with
    | none => simp [hr] at h
    | some e' => simp [hr] at h; subst h; exact hs
  · cases h; exact arrowUp_startLine s hs
  · cases h; exact arrowDown_startLine s hs
  · cases h; exact hs

theorem applyKey_startLine (s : Session) (ev : Event) (o : Outcome) (h : applyKey s ev = o)
    (hs : 0 ≤ s.startLine) : ∀ s', o.session? = some s' → 0 ≤ s'.startLine := by
  intro s' hs'
  unfold applyKey at h
  cases he : editKey s.e ev with
  | none => simp [he] at h; subst h; simp [Outcome.session?] at hs'
  | some e' =>
    simp only [he] at h
    cases hm : moveKey { s with e := e', pending := none } ev with
    | none => simp [hm] at h; subst h; simp [Outcome.session?] at hs'
    | some s2 =>
      simp only [hm] at h
      subst h
      simp only [Outcome.session?, Option.some.injEq] at hs'
      subst hs'
      exact moveKey_startLine _ _ ev hm hs

theorem step_startLine (s : Session) (ev : Event) (hs : 0 ≤ s.startLine) :
    ∀ s', (step s ev).session? = some s' → 0 ≤ s'.startLine := by
  intro s' hs'
  unfold step at hs'
  split at hs'
  · split at hs'
    · simp only [Outcome.session?, Option.some.injEq] at hs'
      subst hs'; exact hs
    · exact applyKey_startLine s _ _ rfl hs s' hs'
  · split at hs'
    · simp [Outcome.session?] at hs'
    · split at hs'
      · unfold commandKey at hs'
        split at hs'
        · split at hs'
          · simp only [Outcome.session?, Option.some.injEq] at hs'
            subst hs'; exact hs
          · rename_i d hd
            exact applyKey_startLine ⟨s.e, s.startLine, s.visibleLines, d, s.pending⟩ ev _ rfl
              hs s' hs'
        · simp only [Outcome.session?, Option.some.injEq] at hs'
          subst hs'; exact hs
        · split at hs'
          · split at hs'
            · simp [Outcome.session?] at hs'
            · simp only [Outcome.session?, Option.some.injEq] at hs'
              subst hs'; exact hs
          · exact applyKey_startLine s _ _ rfl hs s' hs'
      · simp only [Outcome.session?, Option.some.injEq] at hs'
        subst hs'; exact hs
      · simp only [Outcome.session?, Option.some.injEq] at hs'
        subst hs'; exact hs

theorem runLoop_startLine : ∀ (evs : List Event) (s : Session), 0 ≤ s.startLine →
    ∀ s', (runLoop s evs).session? = some s' → 0 ≤ s'.startLine := by
  intro evs
  induction evs with
  | nil =>
    intro s hs s' h
    simp only [runLoop, Outcome.session?, Option.some.injEq] at h
    subst h; exact hs
  | cons ev evs ih =>
    intro s hs s' h
    have hstep := step_startLine s ev hs
    cases ho : step s ev with
    | running s1 =>
      simp only [runLoop, ho] at h
      exact ih s1 (hstep s1 (by simp [ho, Outcome.session?])) s' h
    | terminated s1 =>
      simp only [runLoop, ho] at h
      exact hstep s' (by rw [ho]; exact h)
    | failed s1 =>
      simp only [runLoop, ho] at h
      exact hstep s' (by rw [ho]; exact h)
    | panicked =>
      simp only [runLoop, ho] at h
      simp [Outcome.session?] at h

/-! ## An event that raises the first visible row -/

theorem arrowUp_startLine_le (s : Session) : (arrowUp s).startLine ≤ s.startLine := by
  unfold arrowUp
  simp only
  split
  · split <;> first | omega | (simp only; omega)
  · split <;> first | omega | (simp only; omega)

theorem moveKey_bound (s s' : Session) (ev : Event) (h : moveKey s ev = some s')
    (hlt : s.startLine < s'.startLine) :
    s'.startLine ≤ (s'.e.content.length : Int) - s'.visibleLines := by
  unfold moveKey at h
  split at h
  · cases hl : arrowLeft s.e with
    | none => simp [hl] at h
    | some e' => simp [hl] at h; subst h; simp only at hlt; omega
  · cases hr : arrowRight s.e with
    | none => simp [hr] at h
    | some e' => simp [hr] at h; subst h; simp only at hlt; omega
  · cases h
    have := arrowUp_startLine_le s
    omega
  · cases h; exact arrowDown_bound s hlt
  · cases h; omega

theorem applyKey_bound (s s' : Session) (ev : Event) (h : applyKey s ev = .running s')
    (hlt : s.startLine < s'.startLine) :
    s'.startLine ≤ (s'.e.content.length : Int) - s'.visibleLines := by
  unfold applyKey at h
  cases he : editKey s.e ev with
  | none => simp [he] at h
  | some e' =>
    simp only [he] at h
    cases hm : moveKey { s with e := e', pending := none } ev with
    | none => simp [hm] at h
    | some s2 =>
      simp only [hm, Outcome.running.injEq] at h
      subst h
      exact moveKey_bound _ _ ev hm hlt

/-- Whenever handling an event raises `startLine`, the new value is at most
`len(content) - visibleLines` for the document as the event leaves it. -/
theorem step_bound (s s' : Session) (ev : Event) (h : step s ev = .running s')
    (hlt : s.startLine < s'.startLine) :
    s'.startLine ≤ (s'.e.content.length : Int) - s'.visibleLines := by
  unfold step at h
  split at h
  · split at h
    · simp at h
    · exact applyKey_bound s s' _ h hlt
  · split at h
    · simp at h
    · split at h
      · unfold commandKey at h
        split at h
        · split at h
          · simp at h
          · rename_i d hd
            exact applyKey_bound ⟨s.e, s.startLine, s.visibleLines, d, s.pending⟩ s' ev h hlt
        · simp at h
        · split at h
          · split at h
            · simp at h
            · simp only [Outcome.running.injEq] at h
              subst h; simp only at hlt; omega
          · exact applyKey_bound s s' ev h hlt
      · simp at h
      · simp only [Outcome.running.injEq] at h
        subst h; omega

/-! ## Every edit and every horizontal move keeps the cursor in bounds -/

theorem inBounds_mk (fn : GoString) (pre : List GoString) (line : GoString)
    (post : List GoString) (x : Nat) (hx : x ≤ line.length) :
    InBounds ⟨fn, pre ++ line :: post, ⟨(x : Int), (pre.length : Int)⟩⟩ := by
  refine ⟨by simp, by simp, by simp, ?_⟩
  have h : (pre ++ line :: post).getD pre.length [] = line := by
    rw [List.getD_eq_getElem?_getD, getElem?_mid]; rfl
  simp only [Int.toNat_ofNat, h]
  exact_mod_cast hx

theorem runeToString_length_pos (r : Nat) : 1 ≤ (runeToString r).length := by
  unfold runeToString runeError
  split_ifs <;> simp

theorem newlineCh_split (fn : GoString) (pre : List GoString) (line : GoString)
    (post : List GoString) (x : Nat) (hx : x ≤ line.length) :
    newlineCh ⟨fn, pre ++ line :: post, ⟨(x : Int), (pre.length : Int)⟩⟩ =
      some ⟨fn, pre ++ [line.take x, line.drop x], ⟨0, (pre.length : Int) + 1⟩⟩ := by
  have h1 : sliceTo (pre ++ line :: post) ((pre.length : Int) + 1) = some (pre ++ [line]) := by
    rw [sliceTo_eq _ _ (pre.length + 1) (by push_cast; rfl) (by simp)]
    simp [List.take_append]
  have h2 : sliceFrom (pre ++ [line] ++ [[]]) ((pre.length : Int) + 2) = some [] := by
    rw [sliceFrom_eq _ _ (pre.length + 2) (by push_cast; rfl) (by simp)]
    simp
  have h3 : sliceFrom (pre ++ [line] ++ [[]]) ((pre.length : Int) + 1) = some [[]] := by
    rw [sliceFrom_eq _ _ (pre.length + 1) (by push_cast; rfl) (by simp)]
    simp
  have h4 : copyAt (pre ++ [line] ++ [[]]) ((pre.length : Int) + 2).toNat [[]]
      = pre ++ line :: [[]] := by
    have e : ((pre.length : Int) + 2).toNat = pre.length + 2 := by omega
    rw [e]
    simp [copyAt]
  have h5 : sliceFrom line (x : Int) = some (line.drop x) := sliceFrom_natCast _ _ hx
  have h6 : sliceTo line (x : Int) = some (line.take x) := sliceTo_natCast _ _ hx
  have h7 : assign (pre ++ line :: [[]]) ((pre.length : Int) + 1) (line.drop x)
      = some (pre ++ line :: [line.drop x]) := by
    rw [assign_eq _ _ (pre.length + 1) _ (by push_cast; rfl) (by simp)]
    have := set_mid (pre ++ [line]) [] (line.drop x) []
    simp
  simp only [newlineCh, h1, h2, h3, h4, h5, h6, h7, index_mid, assign_mid, Option.bind_eq_bind,
    Option.some_bind, Option.pure_def]

theorem arrowRight_split (fn : GoString) (pre : List GoString) (line : GoString)
    (post : List GoString) (x : Nat) :
    arrowRight ⟨fn, pre ++ line :: post, ⟨(x : Int), (pre.length : Int)⟩⟩ =
      some ⟨fn, pre ++ line :: post,
        if x < line.length then ⟨(x : Int) + 1, (pre.length : Int)⟩
        else if post ≠ [] then ⟨0, (pre.length : Int) + 1⟩
        else ⟨(x : Int), (pre.length : Int)⟩⟩ := by
  simp only [arrowRight, index_mid]
  by_cases h1 : x < line.length
  · simp [h1]
  · have h1' : ¬ ((x : Int) < (line.length : Int)) := by exact_mod_cast h1
    simp only [h1, h1', if_false]
    cases post with
    | nil => simp
    | cons p ps =>
      have h2 : (pre.length : Int) < ((pre ++ line :: p :: ps).length : Int) - 1 := by
        simp only [List.length_append, List.length_cons]; push_cast; omega
      simp [h2]

theorem arrowLeft_succ (fn : GoString) (content : List GoString) (x : Nat) (y : Int) :
    arrowLeft ⟨fn, content, ⟨(x : Int) + 1, y⟩⟩ = some ⟨fn, content, ⟨(x : Int), y⟩⟩ := by
  have hpos : (x : Int) + 1 > 0 := by omega
  simp [arrowLeft, hpos]

theorem arrowLeft_join (fn : GoString) (pre : List GoString) (prev line : GoString)
    (post : List GoString) :
    arrowLeft ⟨fn, pre ++ prev :: line :: post, ⟨0, (pre.length : Int) + 1⟩⟩ =
      some ⟨fn, pre ++ prev :: line :: post, ⟨(prev.length : Int), (pre.length : Int)⟩⟩ := by
  have hpos : (pre.length : Int) + 1 > 0 := by omega
  have e1 : ((pre.length : Int) + 1 - 1) = (pre.length : Int) := by omega
  simp [arrowLeft, hpos, e1, index_mid]

theorem arrowLeft_origin (fn : GoString) (content : List GoString) :
    arrowLeft ⟨fn, content, ⟨0, 0⟩⟩ = some ⟨fn, content, ⟨0, 0⟩⟩ := by
  simp [arrowLeft]

theorem inBounds_of (fn : GoString) (pre : List GoString) (line : GoString)
    (post : List GoString) (content : List GoString) (cx cy : Int) (x : Nat)
    (hc : content = pre ++ line :: post) (hx : cx = (x : Int)) (hy : cy = (pre.length : Int))
    (hle : x ≤ line.length) : InBounds ⟨fn, content, ⟨cx, cy⟩⟩ := by
  subst hc hx hy
  exact inBounds_mk fn pre line post x hle

theorem editKey_inBounds (e : Editor) (ev : Event) (hb : InBounds e) :
    ∃ e', editKey e ev = some e' ∧ InBounds e' := by
  obtain ⟨pre, line, post, x, hc, hcur, hx⟩ := hb.split
  obtain ⟨fn, content, cursor⟩ := e
  simp only at hc hcur
  subst hc hcur
  have hsame : InBounds ⟨fn, pre ++ line :: post, ⟨(x : Int), (pre.length : Int)⟩⟩ := hb
  have hins : ∀ str : GoString, 1 ≤ str.length →
      ∃ e', insertAtCursor ⟨fn, pre ++ line :: post, ⟨(x : Int), (pre.length : Int)⟩⟩ str
        = some e' ∧ InBounds e' := by
    intro str hstr
    refine ⟨_, insertAtCursor_split fn pre line post x str hx, ?_⟩
    refine inBounds_of fn pre _ post _ _ _ (x + 1) rfl (by push_cast; rfl) rfl ?_
    have h1 : (line.take x).length = x := by rw [List.length_take]; omega
    simp only [List.length_append, h1]
    omega
  have hbs : ∃ e', backspace ⟨fn, pre ++ line :: post, ⟨(x : Int), (pre.length : Int)⟩⟩
      = some e' ∧ InBounds e' := by
    cases x with
    | succ x' =>
      have h := backspace_delete fn pre line post x' hx
      have hcast : ((x' + 1 : Nat) : Int) = (x' : Int) + 1 := by push_cast; rfl
      rw [hcast]
      refine ⟨_, h, inBounds_mk fn pre _ post x' ?_⟩
      rw [List.length_eraseIdx]
      split <;> omega
    | zero =>
      rcases List.eq_nil_or_concat pre with hnil | ⟨pre', prev, hpre⟩
      · subst hnil
        exact ⟨_, backspace_origin fn (line :: post), inBounds_mk fn [] line post 0 (by omega)⟩
      · rw [List.concat_eq_append] at hpre
        subst hpre
        have h := backspace_join fn pre' prev line post
        have hlen : (((pre' ++ [prev]).length : Nat) : Int) = (pre'.length : Int) + 1 := by simp
        have hcont : (pre' ++ [prev]) ++ line :: post = pre' ++ prev :: line :: post := by simp
        rw [hlen, hcont]
        exact ⟨_, h, inBounds_mk fn pre' _ post prev.length (by simp)⟩
  unfold editKey
  by_cases h0 : ev.Ch ≠ 0
  · by_cases h10 : ev.Ch = 10
    · rw [if_pos h0, if_pos h10]
      refine ⟨_, newlineCh_split fn pre line post x hx, ?_⟩
      exact inBounds_of fn (pre ++ [line.take x]) (line.drop x) [] _ _ _ 0 (by simp) rfl
        (by simp) (by omega)
    · rw [if_pos h0, if_neg h10]
      exact hins _ (runeToString_length_pos _)
  · rw [if_neg h0]
    cases ev.Key with
    | KeyBackspace => exact hbs
    | KeyBackspace2 => exact hbs
    | KeyEnter =>
      refine ⟨_, enterKey_split fn pre line post x hx, ?_⟩
      exact inBounds_of fn (pre ++ [line.take x]) (line.drop x) post _ _ _ 0 (by simp) rfl
        (by simp) (by omega)
    | KeyTab => exact hins [9] (by simp)
    | KeySpace => exact hins [32] (by simp)
    | KeyCtrlS => exact ⟨_, rfl, hsame⟩
    | KeyCtrlQ => exact ⟨_, rfl, hsame⟩
    | KeyArrowLeft => exact ⟨_, rfl, hsame⟩
    | KeyArrowRight => exact ⟨_, rfl, hsame⟩
    | KeyArrowUp => exact ⟨_, rfl, hsame⟩
    | KeyArrowDown => exact ⟨_, rfl, hsame⟩
    | KeyOther => exact ⟨_, rfl, hsame⟩

theorem arrowRight_inBounds (e : Editor) (hb : InBounds e) :
    ∃ e', arrowRight e = some e' ∧ InBounds e' ∧ e'.content = e.content := by
  obtain ⟨pre, line, post, x, hc, hcur, hx⟩ := hb.split
  obtain ⟨fn, content, cursor⟩ := e
  simp only at hc hcur
  subst hc hcur
  refine ⟨_, arrowRight_split fn pre line post x, ?_, rfl⟩
  by_cases h1 : x < line.length
  · simp only [h1, if_true]
    exact inBounds_of fn pre line post _ _ _ (x + 1) rfl (by push_cast; rfl) rfl (by omega)
  · simp only [h1, if_false]
    cases post with
    | nil => simpa using hb
    | cons p ps =>
      simp only [ne_eq, reduceCtorEq, not_false_eq_true, if_true]
      exact inBounds_of fn (pre ++ [line]) p ps _ _ _ 0 (by simp) rfl (by simp) (by omega)

theorem arrowLeft_inBounds (e : Editor) (hb : InBounds e) :
    ∃ e', arrowLeft e = some e' ∧ InBounds e' ∧ e'.content = e.content := by
  obtain ⟨pre, line, post, x, hc, hcur, hx⟩ := hb.split
  obtain ⟨fn, content, cursor⟩ := e
  simp only at hc hcur
  subst hc hcur
  cases x with
  | succ x' =>
    have hcast : ((x' + 1 : Nat) : Int) = (x' : Int) + 1 := by push_cast; rfl
    rw [hcast]
    exact ⟨_, arrowLeft_succ fn _ x' _, inBounds_mk fn pre line post x' (by omega), rfl⟩
  | zero =>
    rcases List.eq_nil_or_concat pre with hnil | ⟨pre', prev, hpre⟩
    · subst hnil
      exact ⟨_, arrowLeft_origin fn (line :: post), inBounds_mk fn [] line post 0 (by omega), rfl⟩
    · rw [List.concat_eq_append] at hpre
      subst hpre
      have hlen : (((pre' ++ [prev]).length : Nat) : Int) = (pre'.length : Int) + 1 := by simp
      have hcont : (pre' ++ [prev]) ++ line :: post = pre' ++ prev :: line :: post := by simp
      rw [hlen, hcont]
      exact ⟨_, arrowLeft_join fn pre' prev line post,
        inBounds_mk fn pre' prev (line :: post) prev.length (le_refl _), rfl⟩

theorem applyKey_arrowRight (s : Session) (e' : Editor) (h : arrowRight s.e = some e') :
    applyKey s (keyEvent .KeyArrowRight) = .running { s with e := e', pending := none } := by
  simp [applyKey, editKey, keyEvent, moveKey, h]

theorem applyKey_arrowLeft (s : Session) (e' : Editor) (h : arrowLeft s.e = some e') :
    applyKey s (keyEvent .KeyArrowLeft) = .running { s with e := e', pending := none } := by
  simp [applyKey, editKey, keyEvent, moveKey, h]

/-- The edit statement followed by the arrow-key switch, for a key that is not a vertical
arrow, cannot panic on an in-bounds cursor and leaves the cursor in bounds. -/
theorem applyKey_inBounds (s : Session) (ev : Event) (h1 : ev.Key ≠ .KeyArrowUp)
    (h2 : ev.Key ≠ .KeyArrowDown) (hb : InBounds s.e) :
    ∃ s', applyKey s ev = .running s' ∧ InBounds s'.e ∧ s'.pending = none ∧
      s'.startLine = s.startLine := by
  obtain ⟨e1, he1, hb1⟩ := editKey_inBounds s.e ev hb
  obtain ⟨e2, he2, hb2, _⟩ := arrowLeft_inBounds e1 hb1
  obtain ⟨e3, he3, hb3, _⟩ := arrowRight_inBounds e1 hb1
  unfold applyKey
  simp only [he1]
  unfold moveKey
  cases hk : ev.Key with
  | KeyArrowLeft => simp only [he2, Option.map_some']; exact ⟨_, rfl, hb2, rfl, rfl⟩
  | KeyArrowRight => simp only [he3, Option.map_some']; exact ⟨_, rfl, hb3, rfl, rfl⟩
  | KeyArrowUp => exact absurd hk h1
  | KeyArrowDown => exact absurd hk h2
  | KeyCtrlS => exact ⟨_, rfl, hb1, rfl, rfl⟩
  | KeyCtrlQ => exact ⟨_, rfl, hb1, rfl, rfl⟩
  | KeyBackspace => exact ⟨_, rfl, hb1, rfl, rfl⟩
  | KeyBackspace2 => exact ⟨_, rfl, hb1, rfl, rfl⟩
  | KeyEnter => exact ⟨_, rfl, hb1, rfl, rfl⟩
  | KeyTab => exact ⟨_, rfl, hb1, rfl, rfl⟩
  | KeySpace => exact ⟨_, rfl, hb1, rfl, rfl⟩
  | KeyOther => exact ⟨_, rfl, hb1, rfl, rfl⟩

/-- A key event other than a vertical arrow, polled in the main loop on an in-bounds
cursor, is handled without a panic and leaves the cursor in bounds. -/
theorem step_inBounds (s : Session) (ev : Event) (hp : s.pending = none)
    (hs : 0 ≤ s.startLine) (hb : InBounds s.e) (ht : ev.Typ = .EventKey)
    (h1 : ev.Key ≠ .KeyArrowUp) (h2 : ev.Key ≠ .KeyArrowDown) :
    ∃ s', InBounds s'.e ∧ 0 ≤ s'.startLine ∧
      (step s ev = .running s' ∨ (ev.Key = .KeyCtrlQ ∧ step s ev = .terminated s') ∨
        (ev.Key = .KeyCtrlS ∧ step s ev = .failed s')) := by
  obtain ⟨scr, hscr⟩ := display_total s.e s.startLine s.visibleLines hs
  unfold step
  rw [hp]
  simp only [hscr, ht, commandKey]
  cases hk : ev.Key with
  | KeyCtrlS =>
    simp only
    cases hsave : save s.e s.disk with
    | none => exact ⟨s, hb, hs, Or.inr (Or.inr ⟨trivial, rfl⟩)⟩
    | some d =>
      obtain ⟨s', h, hb', _, hst⟩ := applyKey_inBounds { s with disk := d } ev h1 h2 hb
      exact ⟨s', hb', by rw [hst]; exact hs, Or.inl h⟩
  | KeyCtrlQ => exact ⟨s, hb, hs, Or.inr (Or.inl ⟨rfl, rfl⟩)⟩
  | KeyArrowUp => exact absurd hk h1
  | KeyArrowDown => exact absurd hk h2
  | _ =>
    simp only
    by_cases hq : ev.Ch = 113
    · rw [if_pos hq]
      exact ⟨{ s with pending := some ev }, hb, hs, Or.inl rfl⟩
    · rw [if_neg hq]
      obtain ⟨s', h, hb', _, hst⟩ := applyKey_inBounds s ev h1 h2 hb
      exact ⟨s', hb', by rw [hst]; exact hs, Or.inl h⟩

theorem getD_mid (pre : List GoString) (line : GoString) (post : List GoString) :
    (pre ++ line :: post).getD pre.length [] = line := by
  rw [List.getD_eq_getElem?_getD, getElem?_mid]; rfl

/-! ## The document never becomes empty -/

theorem assign_length {α : Type} (s s' : List α) (i : Int) (v : α)
    (h : assign s i v = some s') : s'.length = s.length := by
  unfold assign at h
  split at h
  · cases h; simp
  · cases h

theorem sliceTo_length {α : Type} (s t : List α) (i : Int) (h : sliceTo s i = some t) :
    (t.length : Int) = i := by
  unfold sliceTo at h
  split at h
  · rename_i hi
    cases h
    rw [List.length_take]
    omega
  · cases h

theorem sliceFrom_length {α : Type} (s t : List α) (i : Int) (h : sliceFrom s i = some t) :
    (t.length : Int) = (s.length : Int) - i := by
  unfold sliceFrom at h
  split at h
  · rename_i hi
    cases h
    rw [List.length_drop]
    omega
  · cases h

theorem copyAt_length {α : Type} (s : List α) (o : Nat) (src : List α) :
    (copyAt s o src).length = s.length := by
  unfold copyAt
  simp only [List.length_append, List.length_take, List.length_drop]
  omega

theorem newlineCh_length (e e' : Editor) (h : newlineCh e = some e') :
    1 ≤ e'.content.length := by
  simp only [newlineCh, Option.bind_eq_bind, Option.bind_eq_some, Option.pure_def,
    Option.some.injEq] at h
  obtain ⟨pre, _, dst, _, src, _, line, _, rest, _, c3, h3, line', _, first, _, c4, h4, rfl⟩ := h
  have l4 := assign_length _ _ _ _ h4
  have l3 := assign_length _ _ _ _ h3
  simp only [l4, l3, copyAt_length, List.length_append, List.length_singleton]
  omega

theorem insertAtCursor_length (e e' : Editor) (str : GoString)
    (h : insertAtCursor e str = some e') : e'.content.length = e.content.length := by
  simp only [insertAtCursor, Option.bind_eq_bind, Option.bind_eq_some, Option.pure_def,
    Option.some.injEq] at h
  obtain ⟨line, _, first, _, rest, _, c, hc, rfl⟩ := h
  exact assign_length _ _ _ _ hc

theorem enterKey_length (e e' : Editor) (h : enterKey e = some e') :
    1 ≤ e'.content.length := by
  simp only [enterKey, Option.bind_eq_bind, Option.bind_eq_some, Option.pure_def,
    Option.some.injEq] at h
  obtain ⟨currentLine, _, newLine, _, first, _, c1, _, post, _, pre, _, rfl⟩ := h
  simp only [List.length_append, List.length_cons]
  omega

theorem backspace_length (e e' : Editor) (h : backspace e = some e')
    (hl : 1 ≤ e.content.length) : 1 ≤ e'.content.length := by
  unfold backspace at h
  split at h
  · simp only [Option.bind_eq_bind, Option.bind_eq_some, Option.pure_def,
      Option.some.injEq] at h
    obtain ⟨line, _, first, _, rest, _, c, hc, rfl⟩ := h
    rw [assign_length _ _ _ _ hc]
    exact hl
  · split at h
    · rename_i hx hy
      simp only [Option.bind_eq_bind, Option.bind_eq_some, Option.pure_def,
        Option.some.injEq] at h
      obtain ⟨prev, _, cur, _, c1, hc1, pre, hpre, post, hpost, rfl⟩ := h
      have l1 := sliceTo_length _ _ _ hpre
      have l2 := sliceFrom_length _ _ _ hpost
      simp only [List.length_append]
      omega
    · simp only [Option.pure_def, Option.some.injEq] at h
      subst h; exact hl

theorem editKey_length (e e' : Editor) (ev : Event) (h : editKey e ev = some e')
    (hl : 1 ≤ e.content.length) : 1 ≤ e'.content.length := by
  unfold editKey at h
  split at h
  · split at h
    · exact newlineCh_length e e' h
    · rw [insertAtCursor_length e e' _ h]; exact hl
  · split at h
    · exact backspace_length e e' h hl
    · exact backspace_length e e' h hl
    · exact enterKey_length e e' h
    · rw [insertAtCursor_length e e' _ h]; exact hl
    · rw [insertAtCursor_length e e' _ h]; exact hl
    · cases h; exact hl

theorem arrowLeft_content (e e' : Editor) (h : arrowLeft e = some e') :
    e'.content = e.content := by
  unfold arrowLeft at h
  split at h
  · cases h; rfl
  · split at h
    · split at h
      · cases h
      · cases h; rfl
    · cases h; rfl

theorem arrowRight_content (e e' : Editor) (h : arrowRight e = some e') :
    e'.content = e.content := by
  unfold arrowRight at h
  split at h
  · cases h
  · split at h
    · cases h; rfl
    · split at h <;> (cases h; rfl)

theorem arrowUp_content (s : Session) : (arrowUp s).e.content = s.e.content := by
  unfold arrowUp
  simp only
  split
  · split <;> rfl
  · split <;> rfl

theorem arrowDown_content (s : Session) : (arrowDown s).e.content = s.e.content := by
  unfold arrowDown
  simp only
  split
  · split <;> rfl
  · split <;> rfl

theorem moveKey_content (s s' : Session) (ev : Event) (h : moveKey s ev = some s') :
    s'.e.content = s.e.content := by
  unfold moveKey at h
  split at h
  · cases hl : arrowLeft s.e with
    | none => simp [hl] at h
    | some e' => simp [hl] at h; subst h; exact arrowLeft_content _ _ hl
  · cases hr : arrowRight s.e with
    | none => simp [hr] at h
    | some e' => simp [hr] at h; subst h; exact arrowRight_content _ _ hr
  · cases h; exact arrowUp_content s
  · cases h; exact arrowDown_content s
  · cases h; rfl

theorem applyKey_length (s : Session) (ev : Event) (hl : 1 ≤ s.e.content.length) :
    ∀ s', (applyKey s ev).session? = some s' → 1 ≤ s'.e.content.length := by
  intro s' hs'
  unfold applyKey at hs'
  cases he : editKey s.e ev with
  | none => simp [he, Outcome.session?] at hs'
  | some e' =>
    simp only [he] at hs'
    cases hm : moveKey { s with e := e', pending := none } ev with
    | none => simp [hm, Outcome.session?] at hs'
    | some s2 =>
      simp only [hm, Outcome.session?, Option.some.injEq] at hs'
      subst hs'
      rw [moveKey_content _ _ ev hm]
      exact editKey_length s.e e' ev he hl

theorem step_length (s : Session) (ev : Event) (hl : 1 ≤ s.e.content.length) :
    ∀ s', (step s ev).session? = some s' → 1 ≤ s'.e.content.length := by
  intro s' hs'
  unfold step at hs'
  split at hs'
  · split at hs'
    · simp only [Outcome.session?, Option.some.injEq] at hs'
      subst hs'; exact hl
    · exact applyKey_length s _ hl s' hs'
  · split at hs'
    · simp [Outcome.session?] at hs'
    · split at hs'
      · unfold commandKey at hs'
        split at hs'
        · split at hs'
          · simp only [Outcome.session?, Option.some.injEq] at hs'
            subst hs'; exact hl
          · rename_i d hd
            exact applyKey_length ⟨s.e, s.startLine, s.visibleLines, d, s.pending⟩ ev hl s' hs'
        · simp only [Outcome.session?, Option.some.injEq] at hs'
          subst hs'; exact hl
        · split at hs'
          · split at hs'
            · simp [Outcome.session?] at hs'
            · simp only [Outcome.session?, Option.some.injEq] at hs'
              subst hs'; exact hl
          · exact applyKey_length s _ hl s' hs'
      · simp only [Outcome.session?, Option.some.injEq] at hs'
        subst hs'; exact hl
      · simp only [Outcome.session?, Option.some.injEq] at hs'
        subst hs'; exact hl

theorem runLoop_length : ∀ (evs : List Event) (s : Session), 1 ≤ s.e.content.length →
    ∀ s', (runLoop s evs).session? = some s' → 1 ≤ s'.e.content.length := by
  intro evs
  induction evs with
  | nil =>
    intro s hs s' h
    simp only [runLoop, Outcome.session?, Option.some.injEq] at h
    subst h; exact hs
  | cons ev evs ih =>
    intro s hs s' h
    have hstep := step_length s ev hs
    cases ho : step s ev with
    | running s1 =>
      simp only [runLoop, ho] at h
      exact ih s1 (hstep s1 (by simp [ho, Outcome.session?])) s' h
    | terminated s1 =>
      simp only [runLoop, ho] at h
      exact hstep s' (by rw [ho]; exact h)
    | failed s1 =>
      simp only [runLoop, ho] at h
      exact hstep s' (by rw [ho]; exact h)
    | panicked =>
      simp only [runLoop, ho] at h
      simp [Outcome.session?] at h

theorem start_length (e : Editor) (height : Int) (d : Disk) :
    1 ≤ (start e height d).e.content.length := by
  unfold start
  simp only
  split
  · simp
  · rename_i h
    simp only
    omega

theorem start_inBounds (fn : GoString) (content : List GoString) (height : Int) (d : Disk) :
    InBounds (start (newEditor fn content) height d).e := by
  cases content with
  | nil => exact inBounds_mk fn [] [] [] 0 (le_refl _)
  | cons line post => exact inBounds_mk fn [] line post 0 (Nat.zero_le _)

theorem inBounds_length (e : Editor) (hb : InBounds e) : 1 ≤ e.content.length := by
  obtain ⟨h0, h1, _, _⟩ := hb
  omega

/-- Backspace events polled in the main loop on an in-bounds cursor are all handled
without a panic, and the cursor stays in bounds. -/
theorem runLoop_backspaces : ∀ (evs : List Event) (s : Session), s.pending = none →
    0 ≤ s.startLine → InBounds s.e →
    (∀ ev ∈ evs, ev = keyEvent .KeyBackspace ∨ ev = keyEvent .KeyBackspace2) →
    ∃ s', runLoop s evs = .running s' ∧ InBounds s'.e := by
  intro evs
  induction evs with
  | nil => intro s _ _ hb _; exact ⟨s, rfl, hb⟩
  | cons ev evs ih =>
    intro s hp hs hb hev
    have hk : ev.Key ≠ .KeyArrowUp ∧ ev.Key ≠ .KeyArrowDown ∧ ev.Key ≠ .KeyCtrlS ∧
        ev.Key ≠ .KeyCtrlQ ∧ ev = keyEvent ev.Key := by
      rcases hev ev (List.mem_cons_self _ _) with rfl | rfl <;> simp [keyEvent]
    obtain ⟨s1, h1, hb1, hp1, hs1⟩ := applyKey_inBounds s ev hk.1 hk.2.1 hb
    have hstep : step s ev = .running s1 := by
      rw [hk.2.2.2.2, step_keyEvent s hp hs _ hk.2.2.1 hk.2.2.2.1, ← hk.2.2.2.2]
      exact h1
    obtain ⟨s', h2, hb2⟩ := ih s1 hp1 (by rw [hs1]; exact hs) hb1
      (fun ev' h' => hev ev' (List.mem_cons_of_mem _ h'))
    exact ⟨s', by simp only [runLoop, hstep, h2], hb2⟩

theorem arrowUp_row (s : Session) (h0 : 0 ≤ s.e.cursor.y)
    (h1 : s.e.cursor.y < (s.e.content.length : Int)) :
    (arrowUp s).e.content = s.e.content ∧ (arrowUp s).e.cursor.x = s.e.cursor.x ∧
      0 ≤ (arrowUp s).e.cursor.y ∧ (arrowUp s).e.cursor.y < (s.e.content.length : Int) := by
  unfold arrowUp
  simp only
  split
  · split <;> (refine ⟨rfl, rfl, ?_, ?_⟩ <;> simp only <;> omega)
  · split <;> exact ⟨rfl, rfl, h0, h1⟩

theorem arrowDown_row (s : Session) (h0 : 0 ≤ s.e.cursor.y)
    (h1 : s.e.cursor.y < (s.e.content.length : Int)) :
    (arrowDown s).e.content = s.e.content ∧ (arrowDown s).e.cursor.x = s.e.cursor.x ∧
      0 ≤ (arrowDown s).e.cursor.y ∧ (arrowDown s).e.cursor.y < (s.e.content.length : Int) := by
  unfold arrowDown
  simp only
  split
  · split <;> (refine ⟨rfl, rfl, ?_, ?_⟩ <;> simp only <;> omega)
  · split <;> exact ⟨rfl, rfl, h0, h1⟩

theorem eraseIdx_inserted {α : Type} (a : List α) (c : α) (b : List α) :
    (a ++ [c] ++ b).eraseIdx a.length = a ++ b := by
  induction a with
  | nil => simp
  | cons p ps ih => simpa using ih

/-! ## The quit confirmation -/

/-- In the main loop, with the redraw possible, the letter `q` changes nothing and leaves
the loop waiting at the confirmation prompt. -/
theorem step_q (s : Session) (hp : s.pending = none) (hs : 0 ≤ s.startLine) :
    step s (chEvent 113) = .running { s with pending := some (chEvent 113) } := by
  obtain ⟨scr, hscr⟩ := display_total s.e s.startLine s.visibleLines hs
  unfold step
  rw [hp]
  simp only [hscr, chEvent, commandKey, if_true]

theorem step_ctrlQ (s : Session) (hp : s.pending = none) (hs : 0 ≤ s.startLine) (c : Nat) :
    step s ⟨.EventKey, .KeyCtrlQ, c⟩ = .terminated s := by
  obtain ⟨scr, hscr⟩ := display_total s.e s.startLine s.visibleLines hs
  unfold step
  rw [hp]
  simp only [hscr, commandKey]

theorem applyKey_cases (s : Session) (ev : Event) :
    applyKey s ev = .panicked ∨ ∃ s', applyKey s ev = .running s' ∧ s'.pending = none ∧
      s'.disk = s.disk := by
  unfold applyKey
  cases he : editKey s.e ev with
  | none => exact Or.inl rfl
  | some e' =>
    simp only
    cases hm : moveKey { s with e := e', pending := none } ev with
    | none => exact Or.inl rfl
    | some s2 =>
      refine Or.inr ⟨s2, rfl, ?_, ?_⟩
      · unfold moveKey at hm
        split at hm
        · cases hl : arrowLeft e' with
          | none => simp [hl] at hm
          | some e2 => simp [hl] at hm; subst hm; rfl
        · cases hr : arrowRight e' with
          | none => simp [hr] at hm
          | some e2 => simp [hr] at hm; subst hm; rfl
        · cases hm; unfold arrowUp; simp only; split <;> split <;> rfl
        · cases hm; unfold arrowDown; simp only; split <;> split <;> rfl
        · cases hm; rfl
      · unfold moveKey at hm
        split at hm
        · cases hl : arrowLeft e' with
          | none => simp [hl] at hm
          | some e2 => simp [hl] at hm; subst hm; rfl
        · cases hr : arrowRight e' with
          | none => simp [hr] at hm
          | some e2 => simp [hr] at hm; subst hm; rfl
        · cases hm; unfold arrowUp; simp only; split <;> split <;> rfl
        · cases hm; unfold arrowDown; simp only; split <;> split <;> rfl
        · cases hm; rfl

/-- At the confirmation prompt an event that is not the letter `q` is dropped and the
pending `q` gets inserted at an in-bounds cursor. -/
theorem step_declined (fn : GoString) (pre : List GoString) (line : GoString)
    (post : List GoString) (x : Nat) (hx : x ≤ line.length) (st vis : Int) (disk : Disk)
    (e2 : Event) (h2 : ¬ (e2.Typ = .EventKey ∧ e2.Ch = 113)) :
    step ⟨⟨fn, pre ++ line :: post, ⟨(x : Int), (pre.length : Int)⟩⟩, st, vis, disk,
        some (chEvent 113)⟩ e2 =
      .running ⟨⟨fn, pre ++ (line.take x ++ [113] ++ line.drop x) :: post,
        ⟨(x : Int) + 1, (pre.length : Int)⟩⟩, st, vis, disk, none⟩ := by
  have hins := insertAtCursor_split fn pre line post x [113] hx
  have hrune : runeToString 113 = [113] := by decide
  unfold step
  simp only [if_neg h2]
  simp [applyKey, editKey, chEvent, moveKey, hrune, hins]

/-! ## The document as a flat text -/

theorem text_cons_cons (a b : GoString) (l : List GoString) :
    text (a :: b :: l) = a ++ 10 :: text (b :: l) := by
  simp [text, List.intercalate, List.intersperse]

theorem text_cons (a : GoString) (post : List GoString) :
    text (a :: post) = a ++ restText post := by
  induction post generalizing a with
  | nil => simp [text, restText, List.intercalate, List.intersperse]
  | cons b l ih =>
    rw [text_cons_cons, ih b]
    simp [restText]

theorem fileBytes_cons (a : GoString) (l : List GoString) :
    fileBytes (a :: l) = a ++ 10 :: fileBytes l := by
  simp [fileBytes]

theorem fileBytes_append (l1 l2 : List GoString) :
    fileBytes (l1 ++ l2) = fileBytes l1 ++ fileBytes l2 := by
  simp [fileBytes]

theorem text_mk (pre : List GoString) (line : GoString) (post : List GoString) :
    text (pre ++ line :: post) = fileBytes pre ++ (line ++ restText post) := by
  induction pre with
  | nil => simp [fileBytes, text_cons]
  | cons p ps ih =>
    cases ps with
    | nil =>
      simp only [List.cons_append, List.nil_append, text_cons_cons, text_cons, fileBytes_cons]
      simp [fileBytes, restText]
    | cons q qs =>
      simp only [List.cons_append] at ih ⊢
      rw [text_cons_cons, ih]
      simp [fileBytes_cons]

theorem fileBytes_length (l : List GoString) :
    (fileBytes l).length = (l.map (fun line => line.length + 1)).sum := by
  induction l with
  | nil => simp [fileBytes]
  | cons a l ih =>
    rw [fileBytes_cons]
    simp only [List.length_append, List.length_cons, ih, List.map_cons, List.sum_cons]
    omega

theorem cursorOff_mk (fn : GoString) (pre : List GoString) (line : GoString)
    (post : List GoString) (x : Nat) :
    cursorOff ⟨fn, pre ++ line :: post, ⟨(x : Int), (pre.length : Int)⟩⟩
      = x + (fileBytes pre).length := by
  simp only [cursorOff, off, Int.toNat_ofNat, take_before, fileBytes_length]

theorem flatInsert_at (a b t : GoString) (o c : Nat) (ht : t = a ++ b) (ho : o = a.length) :
    flatInsert t o c = a ++ c :: b := by
  subst ht ho
  simp [flatInsert]

theorem flatRemove_at (a b t : GoString) (o c : Nat) (ht : t = a ++ c :: b)
    (ho : o = a.length) : flatRemove t o = a ++ b := by
  subst ht ho
  simp [flatRemove]

theorem append_split (p line r : GoString) (x : Nat) :
    p ++ (line ++ r) = (p ++ line.take x) ++ (line.drop x ++ r) := by
  rw [List.append_assoc, ← List.append_assoc (line.take x), List.take_append_drop]

theorem applyKey_ch (s : Session) (c : Nat) (e' : Editor)
    (h : editKey s.e (chEvent c) = some e') :
    applyKey s (chEvent c) = .running { s with e := e', pending := none } := by
  simp only [applyKey, h]
  simp [moveKey, chEvent]

theorem editKey_ch_split (fn : GoString) (pre : List GoString) (line : GoString)
    (post : List GoString) (x c : Nat) (hx : x ≤ line.length) (h0 : c ≠ 0) (h10 : c ≠ 10)
    (h128 : c < 128) :
    editKey ⟨fn, pre ++ line :: post, ⟨(x : Int), (pre.length : Int)⟩⟩ (chEvent c) =
      some ⟨fn, pre ++ (line.take x ++ c :: line.drop x) :: post,
        ⟨(x : Int) + 1, (pre.length : Int)⟩⟩ := by
  have hrune : runeToString c = [c] := by simp [runeToString, h128]
  have hins := insertAtCursor_split fn pre line post x [c] hx
  simp only [editKey, chEvent, ne_eq, h0, not_false_eq_true, if_true, h10, if_false, hrune]
  simpa using hins

/-! ## Reading back what was written -/

theorem dropCR_of_getLast (data : GoString) (h : data.getLast? ≠ some 13) :
    dropCR data = data := by
  simp [dropCR, h]

theorem scanLines_newline (rest cur : GoString) (h : cur.length < maxScanTokenSize) :
    scanLines (10 :: rest) cur = (dropCR cur :: (scanLines rest []).1, (scanLines rest []).2) := by
  have h' : ¬ cur.length ≥ maxScanTokenSize := by omega
  simp only [scanLines, h', if_false, if_true]

theorem scanLines_byte (b : Nat) (rest cur : GoString) (h : cur.length < maxScanTokenSize)
    (hb : b ≠ 10) : scanLines (b :: rest) cur = scanLines rest (cur ++ [b]) := by
  have h' : ¬ cur.length ≥ maxScanTokenSize := by omega
  simp only [scanLines, h', if_false, hb]

/-- The scanner reads one line that fits its buffer and goes on behind the newline. -/
theorem scanLines_line (rest : GoString) :
    ∀ (l cur : GoString), 10 ∉ l → (cur ++ l).length < maxScanTokenSize →
      scanLines (l ++ 10 :: rest) cur =
        (dropCR (cur ++ l) :: (scanLines rest []).1, (scanLines rest []).2) := by
  intro l
  induction l with
  | nil =>
    intro cur _ hlen
    simp only [List.append_nil] at hlen
    simp only [List.nil_append, List.append_nil]
    exact scanLines_newline rest cur hlen
  | cons b l ih =>
    intro cur hmem hlen
    have hb : b ≠ 10 := fun h => hmem (by simp [h])
    have hl : 10 ∉ l := fun h => hmem (List.mem_cons_of_mem _ h)
    have hcur : cur.length < maxScanTokenSize := by
      simp only [List.length_append] at hlen; omega
    have hassoc : (cur ++ [b]) ++ l = cur ++ b :: l := by simp
    rw [List.cons_append, scanLines_byte b _ cur hcur hb, ih (cur ++ [b]) hl (by rw [hassoc]; exact hlen),
      hassoc]

/-- Lines without newline or carriage return, each fitting the scanner's buffer, are read
back from the bytes `writeFile` writes for them. -/
theorem scanLines_fileBytes :
    ∀ lines : List GoString, (∀ l ∈ lines, 10 ∉ l ∧ 13 ∉ l ∧ l.length < maxScanTokenSize) →
      scanLines (fileBytes lines) [] = (lines, none) := by
  intro lines
  induction lines with
  | nil => intro _; simp [fileBytes, scanLines, maxScanTokenSize]
  | cons l ls ih =>
    intro h
    obtain ⟨h10, h13, hlen⟩ := h l (List.mem_cons_self _ _)
    have hrest := ih (fun l' h' => h l' (List.mem_cons_of_mem _ h'))
    have hcr : dropCR l = l :=
      dropCR_of_getLast l (fun hg => h13 (List.mem_of_getLast?_eq_some hg))
    rw [fileBytes_cons, scanLines_line _ l [] h10 (by simpa using hlen), hrest]
    simp [hcr]

/-- A file content that ends with a newline, has no carriage return before a newline and
no over-long line is scanned without an error into lines that `save` writes back as the
same bytes; `cur` is the part of the current line already read. -/
theorem scanLines_roundtrip :
    ∀ (rest cur : GoString), 10 ∉ cur → NoCRLF (cur ++ rest) → ShortLines (cur ++ rest) →
      (rest = [] → cur = []) → (rest ≠ [] → rest.getLast? = some 10) →
      (scanLines rest cur).2 = none ∧ fileBytes (scanLines rest cur).1 = cur ++ rest := by
  intro rest
  induction rest with
  | nil =>
    intro cur _ _ _ hnil _
    rw [hnil rfl]
    simp [scanLines, maxScanTokenSize, fileBytes]
  | cons b rest ih =>
    intro cur hcur hcrlf hshort _ hlast
    have hlen : cur.length < maxScanTokenSize :=
      hshort cur (List.prefix_append cur (b :: rest)).isInfix hcur
    have hlast' : rest ≠ [] → rest.getLast? = some 10 := by
      intro hne
      have h := hlast (List.cons_ne_nil _ _)
      cases rest with
      | nil => exact absurd rfl hne
      | cons c cs => rwa [List.getLast?_cons_cons] at h
    by_cases hb : b = 10
    · subst hb
      have hsuf : rest <:+: cur ++ 10 :: rest := by
        have : cur ++ 10 :: rest = (cur ++ [10]) ++ rest := by simp
        rw [this]
        exact (List.suffix_append _ _).isInfix
      have hrec := ih [] (by simp)
        (fun h => hcrlf (List.IsInfix.trans (by simpa using h) hsuf))
        (fun seg hseg h10 => hshort seg (List.IsInfix.trans (by simpa using hseg) hsuf) h10)
        (fun _ => rfl) hlast'
      have hcr : dropCR cur = cur := by
        apply dropCR_of_getLast
        intro hg
        obtain ⟨c', rfl⟩ := List.getLast?_eq_some_iff.mp hg
        exact hcrlf ⟨c', rest, by simp⟩
      rw [scanLines_newline rest cur hlen]
      refine ⟨hrec.1, ?_⟩
      simp only [fileBytes_cons, hcr, hrec.2, List.nil_append]
    · have hassoc : (cur ++ [b]) ++ rest = cur ++ b :: rest := by simp
      have hrec := ih (cur ++ [b])
        (by simp only [List.mem_append, List.mem_singleton, not_or]
            exact ⟨hcur, fun h => hb h.symm⟩)
        (by rw [hassoc]; exact hcrlf) (by rw [hassoc]; exact hshort)
        (by
          intro hr
          subst hr
          have h := hlast (List.cons_ne_nil _ _)
          simp only [List.getLast?_singleton, Option.some.injEq] at h
          exact absurd h hb)
        hlast'
      rw [scanLines_byte b rest cur hlen hb]
      rw [hassoc] at hrec
      exact hrec

/-- A line that has filled the scanner's buffer ends the scan with `ErrTooLong`. -/
theorem scanLines_full (rest cur : GoString) (h : maxScanTokenSize ≤ cur.length) :
    scanLines rest cur = ([], some .tooLong) := by
  cases rest <;> simp [scanLines, h]

theorem scanLines_bytes (rest : GoString) :
    ∀ (l cur : GoString), 10 ∉ l → (cur ++ l).length ≤ maxScanTokenSize →
      scanLines (l ++ rest) cur = scanLines rest (cur ++ l) := by
  intro l
  induction l with
  | nil => intro cur _ _; simp
  | cons b l ih =>
    intro cur hmem hlen
    have hb : b ≠ 10 := fun h => hmem (by simp [h])
    have hl : 10 ∉ l := fun h => hmem (List.mem_cons_of_mem _ h)
    have hcur : cur.length < maxScanTokenSize := by
      simp only [List.length_append, List.length_cons] at hlen; omega
    have hassoc : (cur ++ [b]) ++ l = cur ++ b :: l := by simp
    rw [List.cons_append, scanLines_byte b _ cur hcur hb,
      ih (cur ++ [b]) hl (by rw [hassoc]; exact hlen), hassoc]

theorem step_ctrlS (s : Session) (hp : s.pending = none) (hs : 0 ≤ s.startLine)
    (hw : s.disk.writable = true) :
    step s (keyEvent .KeyCtrlS) = .running
      { s with disk := { s.disk with data := fileBytes s.e.content, saves := s.disk.saves + 1 } } := by
  obtain ⟨scr, hscr⟩ := display_total s.e s.startLine s.visibleLines hs
  obtain ⟨e, st, vis, disk, pending⟩ := s
  simp only at hp hw hscr
  subst hp
  unfold step
  simp only [hscr, keyEvent, commandKey, save, hw, if_true]
  simp [applyKey, editKey, moveKey]

theorem start_content (fn : GoString) (content : List GoString) (height : Int) (d : Disk)
    (h : content ≠ []) : (start (newEditor fn content) height d).e.content = content := by
  cases content with
  | nil => exact absurd rfl h
  | cons l ls => rfl

/-! ## Claims -/

/-- C1 (fails on the code): on the document `["a", ""]` the events ArrowRight, ArrowDown, taken
from the initial state, leave the cursor at `(1, 1)` while line 1 has length 0: `ArrowDown`
moves the row and keeps the column, so the cursor is out of bounds. -/
theorem C1_vertical_move_leaves_cursor_out_of_bounds :
    ∃ s : Session,
      runLoop (start (newEditor [] [[97], []]) 24 ⟨true, [], 0⟩)
        [keyEvent .KeyArrowRight, keyEvent .KeyArrowDown] = .running s ∧
      s.e.content = [[97], []] ∧ s.e.cursor = ⟨1, 1⟩ ∧ ¬ InBounds s.e :=
  ⟨_, rfl, rfl, rfl, by decide⟩

/-- C2 (fails on the code): on the document `["a", ""]` the events ArrowRight, ArrowDown, `x`,
taken from the initial state, end in a panic: the character insert slices the empty line 1
at column 1. The first two events are handled without a panic. -/
theorem C2_insert_after_vertical_move_panics :
    runLoop (start (newEditor [] [[97], []]) 24 ⟨true, [], 0⟩)
        [keyEvent .KeyArrowRight, keyEvent .KeyArrowDown, chEvent 120] = .panicked ∧
      (runLoop (start (newEditor [] [[97], []]) 24 ⟨true, [], 0⟩)
        [keyEvent .KeyArrowRight, keyEvent .KeyArrowDown]).session?.isSome = true :=
  ⟨rfl, rfl⟩

/-- C3: for an in-bounds cursor `(x, y)` in the main loop (no confirmation awaited, first
visible row not negative, as in every reachable state), a KeyEnter event is handled
without a panic; afterwards the document has one more line, the lines before `y` are
unchanged, line `y` is the first `x` positions of the old line `y`, line `y+1` is the rest
of the old line `y`, every old line at an index `i > y` is at index `i+1`, and the cursor
is `(0, y+1)`. -/
theorem C3_enter_postcondition (s : Session) (hp : s.pending = none) (hs : 0 ≤ s.startLine)
    (hb : InBounds s.e) :
    ∃ (s' : Session) (line : GoString),
      step s (keyEvent .KeyEnter) = .running s' ∧
      s.e.content[s.e.cursor.y.toNat]? = some line ∧
      s'.e.content.length = s.e.content.length + 1 ∧
      (∀ i : Nat, i < s.e.cursor.y.toNat → s'.e.content[i]? = s.e.content[i]?) ∧
      s'.e.content[s.e.cursor.y.toNat]? = some (line.take s.e.cursor.x.toNat) ∧
      s'.e.content[s.e.cursor.y.toNat + 1]? = some (line.drop s.e.cursor.x.toNat) ∧
      (∀ i : Nat, s.e.cursor.y.toNat < i → s'.e.content[i + 1]? = s.e.content[i]?) ∧
      s'.e.cursor = ⟨0, s.e.cursor.y + 1⟩ := by
  obtain ⟨pre, line, post, x, hc, hcur, hx⟩ := hb.split
  obtain ⟨⟨fn, content, cursor⟩, st, vis, disk, pending⟩ := s
  simp only at hp hs hc hcur
  subst hc hcur hp
  have hstep := step_keyEvent ⟨⟨fn, pre ++ line :: post, ⟨x, pre.length⟩⟩, st, vis, disk, none⟩
    rfl hs .KeyEnter (by decide) (by decide)
  rw [applyKey_enter _ _ (enterKey_split fn pre line post x hx)] at hstep
  refine ⟨_, line, hstep, ?_, ?_, ?_, ?_, ?_, ?_, rfl⟩
  · simp only [Int.toNat_ofNat]
    exact getElem?_mid pre line post
  · simp; omega
  · intro i hi
    have hi' : i < pre.length := by simpa using hi
    simp [List.getElem?_append_left hi']
  · simp only [Int.toNat_ofNat]
    exact getElem?_mid pre _ _
  · simp only [Int.toNat_ofNat]
    rw [List.getElem?_append_right (Nat.le_succ _)]
    simp
  · intro i hi
    have hi' : pre.length < i := by simpa using hi
    exact getElem?_after_split _ _ _ _ pre i hi'

/-- C3 at a concrete input: Enter in the middle of line 1 of `["ab", "cde", "f"]`. -/
theorem C3_enter_postcondition_witness :
    ∃ (s' : Session) (line : GoString),
      step ⟨⟨[], [[97, 98], [99, 100, 101], [102]], ⟨1, 1⟩⟩, 0, 23, ⟨true, [], 0⟩, none⟩
        (keyEvent .KeyEnter) = .running s' ∧
      ([[97, 98], [99, 100, 101], [102]] : List GoString)[(1 : Int).toNat]? = some line ∧
      s'.e.content.length = 3 + 1 ∧
      (∀ i : Nat, i < (1 : Int).toNat →
        s'.e.content[i]? = ([[97, 98], [99, 100, 101], [102]] : List GoString)[i]?) ∧
      s'.e.content[(1 : Int).toNat]? = some (line.take (1 : Int).toNat) ∧
      s'.e.content[(1 : Int).toNat + 1]? = some (line.drop (1 : Int).toNat) ∧
      (∀ i : Nat, (1 : Int).toNat < i →
        s'.e.content[i + 1]? = ([[97, 98], [99, 100, 101], [102]] : List GoString)[i]?) ∧
      s'.e.cursor = ⟨0, 1 + 1⟩ :=
  C3_enter_postcondition
    ⟨⟨[], [[97, 98], [99, 100, 101], [102]], ⟨1, 1⟩⟩, 0, 23, ⟨true, [], 0⟩, none⟩
    rfl (by decide) (by decide)

/-- C4 (fails on the code): on the document `["a", "b"]` with the cursor at `(0, 0)`, a key
event with `Ch == '\n'` leaves `["", "a"]` and drops line `"b"`, while KeyEnter leaves
`["", "a", "b"]`: the `'\n'` branch truncates the document after the cursor row. -/
theorem C4_newline_char_drops_following_lines :
    (∃ s : Session,
      step (start (newEditor [] [[97], [98]]) 24 ⟨true, [], 0⟩) (chEvent 10) = .running s ∧
        s.e.content = [[], [97]] ∧ s.e.cursor = ⟨0, 1⟩) ∧
    (∃ s : Session,
      step (start (newEditor [] [[97], [98]]) 24 ⟨true, [], 0⟩) (keyEvent .KeyEnter)
          = .running s ∧
        s.e.content = [[], [97], [98]] ∧ s.e.cursor = ⟨0, 1⟩) ∧
    step (start (newEditor [] [[97], [98]]) 24 ⟨true, [], 0⟩) (chEvent 10) ≠
      step (start (newEditor [] [[97], [98]]) 24 ⟨true, [], 0⟩) (keyEvent .KeyEnter) :=
  ⟨⟨_, rfl, rfl, rfl⟩, ⟨_, rfl, rfl, rfl⟩, by decide⟩

/-- C5: for an in-bounds cursor `(x, y)` in the main loop (no confirmation awaited, first
visible row not negative), a Backspace event (either key) is handled without a panic and (1) if `x > 0` removes position `x-1` from line `y`, leaves the
other lines as they are and sets the cursor to `(x-1, y)`; (2) if `x == 0` and `y > 0`
replaces line `y-1` by line `y-1` followed by line `y`, removes line `y` (one line fewer,
the other lines in their order) and sets the cursor to (old length of line `y-1`, `y-1`);
(3) if `x == 0` and `y == 0` changes nothing. On `["abc"]` at `(3,0)` three backspaces give
`[""]` at `(0,0)`; on `["ab","cd"]` at `(0,1)` one backspace gives `["abcd"]` at `(2,0)`. -/
theorem C5_backspace_cases :
    (∀ (s : Session) (k : Key), s.pending = none → 0 ≤ s.startLine → InBounds s.e →
      (k = .KeyBackspace ∨ k = .KeyBackspace2) →
      ∃ s' : Session, step s (keyEvent k) = .running s' ∧
        (0 < s.e.cursor.x → ∃ line : GoString,
          s.e.content[s.e.cursor.y.toNat]? = some line ∧
          s'.e.content = s.e.content.set s.e.cursor.y.toNat
            (line.eraseIdx (s.e.cursor.x - 1).toNat) ∧
          s'.e.cursor = ⟨s.e.cursor.x - 1, s.e.cursor.y⟩) ∧
        (s.e.cursor.x = 0 → 0 < s.e.cursor.y → ∃ prev cur : GoString,
          s.e.content[(s.e.cursor.y - 1).toNat]? = some prev ∧
          s.e.content[s.e.cursor.y.toNat]? = some cur ∧
          s'.e.content = s.e.content.take (s.e.cursor.y - 1).toNat ++ (prev ++ cur) ::
            s.e.content.drop (s.e.cursor.y.toNat + 1) ∧
          s'.e.content.length + 1 = s.e.content.length ∧
          s'.e.cursor = ⟨(prev.length : Int), s.e.cursor.y - 1⟩) ∧
        (s.e.cursor.x = 0 → s.e.cursor.y = 0 → s' = s)) ∧
    runLoop ⟨⟨[], [[97, 98, 99]], ⟨3, 0⟩⟩, 0, 23, ⟨true, [], 0⟩, none⟩
        [keyEvent .KeyBackspace, keyEvent .KeyBackspace2, keyEvent .KeyBackspace]
      = .running ⟨⟨[], [[]], ⟨0, 0⟩⟩, 0, 23, ⟨true, [], 0⟩, none⟩ ∧
    runLoop ⟨⟨[], [[97, 98], [99, 100]], ⟨0, 1⟩⟩, 0, 23, ⟨true, [], 0⟩, none⟩
        [keyEvent .KeyBackspace]
      = .running ⟨⟨[], [[97, 98, 99, 100]], ⟨2, 0⟩⟩, 0, 23, ⟨true, [], 0⟩, none⟩ := by
  refine ⟨?_, rfl, rfl⟩
  intro s k hp hs hb hk
  obtain ⟨pre, line, post, x, hc, hcur, hx⟩ := hb.split
  obtain ⟨⟨fn, content, cursor⟩, st, vis, disk, pending⟩ := s
  simp only at hp hs hc hcur
  subst hc hcur hp
  have hk1 : k ≠ .KeyCtrlS := by rcases hk with rfl | rfl <;> decide
  have hk2 : k ≠ .KeyCtrlQ := by rcases hk with rfl | rfl <;> decide
  have hstep := step_keyEvent ⟨⟨fn, pre ++ line :: post, ⟨x, pre.length⟩⟩, st, vis, disk, none⟩
    rfl hs k hk1 hk2
  cases x with
  | succ x' =>
    have hbs := backspace_delete fn pre line post x' hx
    have hcast : ((x' + 1 : Nat) : Int) = (x' : Int) + 1 := by push_cast; rfl
    rw [← hcast] at hbs
    rw [applyKey_backspace _ k hk _ hbs] at hstep
    refine ⟨_, hstep, ?_, ?_, ?_⟩
    · intro _
      refine ⟨line, ?_, ?_, ?_⟩
      · simp only [Int.toNat_ofNat]
        exact getElem?_mid pre line post
      · have e1 : (((x' + 1 : Nat) : Int) - 1).toNat = x' := by push_cast; omega
        simp only [Int.toNat_ofNat, e1]
        exact (set_mid pre line _ post).symm
      · have e2 : ((x' + 1 : Nat) : Int) - 1 = (x' : Int) := by push_cast; omega
        simp only [e2]
    · intro h0
      simp only at h0
      omega
    · intro h0
      simp only at h0
      omega
  | zero =>
    rcases List.eq_nil_or_concat pre with hnil | ⟨pre', prev, hpre⟩
    · subst hnil
      have hbs := backspace_origin fn (line :: post)
      have hstep' : step ⟨⟨fn, line :: post, ⟨0, 0⟩⟩, st, vis, disk, none⟩ (keyEvent k)
          = .running ⟨⟨fn, line :: post, ⟨0, 0⟩⟩, st, vis, disk, none⟩ := by
        have := applyKey_backspace ⟨⟨fn, line :: post, ⟨0, 0⟩⟩, st, vis, disk, none⟩ k hk _ hbs
        rw [← this]
        simpa using hstep
      refine ⟨_, by simpa using hstep', ?_, ?_, ?_⟩
      · intro h0; simp at h0
      · intro _ h0; simp at h0
      · intro _ _; simp
    · rw [List.concat_eq_append] at hpre
      subst hpre
      have hbs := backspace_join fn pre' prev line post
      have hlen : (((pre' ++ [prev]).length : Nat) : Int) = (pre'.length : Int) + 1 := by simp
      have hcont : (pre' ++ [prev]) ++ line :: post = pre' ++ prev :: line :: post := by simp
      have hstep' : step ⟨⟨fn, pre' ++ prev :: line :: post, ⟨0, (pre'.length : Int) + 1⟩⟩,
            st, vis, disk, none⟩ (keyEvent k)
          = .running ⟨⟨fn, pre' ++ (prev ++ line) :: post,
              ⟨(prev.length : Int), (pre'.length : Int)⟩⟩, st, vis, disk, none⟩ := by
        rw [step_keyEvent _ rfl hs k hk1 hk2, applyKey_backspace _ k hk _ hbs]
      refine ⟨_, by simpa [hcont] using hstep', ?_, ?_, ?_⟩
      · intro h0; simp at h0
      · intro _ _
        have e1 : ((((pre' ++ [prev]).length : Nat) : Int) - 1).toNat = pre'.length := by
          rw [hlen]; omega
        have e2 : (((pre' ++ [prev]).length : Nat) : Int).toNat + 1 = pre'.length + 2 := by
          rw [hlen]; omega
        refine ⟨prev, line, ?_, ?_, ?_, ?_, ?_⟩
        · simp only [e1, hcont]
          exact getElem?_mid pre' prev _
        · simp only [Int.toNat_ofNat]
          exact getElem?_mid _ line post
        · simp only [e1, e2, hcont]
          rw [take_before, drop_after_two]
        · simp only [hcont, List.length_append, List.length_cons]
          omega
        · simp
      · intro _ h0
        simp at h0
        omega

/-- C5 at a concrete input: Backspace2 at `(1, 1)` of `["ab", "cd"]` removes the `c`. -/
theorem C5_backspace_cases_witness :
    InBounds (⟨[], [[97, 98], [99, 100]], ⟨1, 1⟩⟩ : Editor) ∧
    ∃ s' : Session,
      step ⟨⟨[], [[97, 98], [99, 100]], ⟨1, 1⟩⟩, 0, 23, ⟨true, [], 0⟩, none⟩
        (keyEvent .KeyBackspace2) = .running s' ∧
      s'.e.content = [[97, 98], [100]] ∧ s'.e.cursor = ⟨0, 1⟩ := by
  refine ⟨by decide, ?_⟩
  obtain ⟨s', h1, h2, _, _⟩ := C5_backspace_cases.1
    ⟨⟨[], [[97, 98], [99, 100]], ⟨1, 1⟩⟩, 0, 23, ⟨true, [], 0⟩, none⟩ .KeyBackspace2
    rfl (by decide) (by decide) (Or.inr rfl)
  obtain ⟨line, hl, hc, hcur⟩ := h2 (by decide)
  have hline : line = [99, 100] := by
    have : ([[97, 98], [99, 100]] : List GoString)[(1 : Int).toNat]? = some [99, 100] := rfl
    exact Option.some.inj (hl.symm.trans this)
  subst hline
  exact ⟨s', h1, hc, hcur⟩

/-- C6: for an in-bounds cursor in the main loop (no confirmation awaited, first visible
row not negative), a KeyEnter event followed by a Backspace event (either key) is handled
without a panic and leaves exactly the state it started from: the same lines in the same order and the same cursor. -/
theorem C6_enter_backspace_roundtrip (s : Session) (k : Key) (hp : s.pending = none)
    (hs : 0 ≤ s.startLine) (hb : InBounds s.e) (hk : k = .KeyBackspace ∨ k = .KeyBackspace2) :
    runLoop s [keyEvent .KeyEnter, keyEvent k] = .running s := by
  obtain ⟨pre, line, post, x, hc, hcur, hx⟩ := hb.split
  obtain ⟨⟨fn, content, cursor⟩, st, vis, disk, pending⟩ := s
  simp only at hp hs hc hcur
  subst hc hcur hp
  have hk1 : k ≠ .KeyCtrlS := by rcases hk with rfl | rfl <;> decide
  have hk2 : k ≠ .KeyCtrlQ := by rcases hk with rfl | rfl <;> decide
  have h1 : step ⟨⟨fn, pre ++ line :: post, ⟨x, pre.length⟩⟩, st, vis, disk, none⟩
      (keyEvent .KeyEnter)
      = .running ⟨⟨fn, pre ++ line.take x :: line.drop x :: post, ⟨0, (pre.length : Int) + 1⟩⟩,
          st, vis, disk, none⟩ := by
    rw [step_keyEvent _ rfl hs .KeyEnter (by decide) (by decide),
      applyKey_enter _ _ (enterKey_split fn pre line post x hx)]
  have h2 : step ⟨⟨fn, pre ++ line.take x :: line.drop x :: post,
        ⟨0, (pre.length : Int) + 1⟩⟩, st, vis, disk, none⟩ (keyEvent k)
      = .running ⟨⟨fn, pre ++ line :: post, ⟨x, pre.length⟩⟩, st, vis, disk, none⟩ := by
    rw [step_keyEvent _ rfl hs k hk1 hk2,
      applyKey_backspace _ k hk _ (backspace_join fn pre (line.take x) (line.drop x) post)]
    simp [List.take_append_drop, Nat.min_eq_left hx]
  simp only [runLoop, h1, h2]

/-- C6 at a concrete input: Enter then Backspace at `(1, 0)` of `["ab", "c"]`. -/
theorem C6_enter_backspace_roundtrip_witness :
    InBounds (⟨[], [[97, 98], [99]], ⟨1, 0⟩⟩ : Editor) ∧
    runLoop ⟨⟨[], [[97, 98], [99]], ⟨1, 0⟩⟩, 0, 23, ⟨true, [], 0⟩, none⟩
        [keyEvent .KeyEnter, keyEvent .KeyBackspace]
      = .running ⟨⟨[], [[97, 98], [99]], ⟨1, 0⟩⟩, 0, 23, ⟨true, [], 0⟩, none⟩ :=
  ⟨by decide, C6_enter_backspace_roundtrip
    ⟨⟨[], [[97, 98], [99]], ⟨1, 0⟩⟩, 0, 23, ⟨true, [], 0⟩, none⟩ .KeyBackspace
    rfl (by decide) (by decide) (Or.inl rfl)⟩

/-- C7 (fails on the code): typing U+00E9 into an empty line leaves a line of length 2
with the cursor at column 1, and typing U+00E9 and then `a` leaves the bytes `C3 61 A9`,
of length 3, with the cursor at column 2, while the two code points in insertion order
are the bytes `C3 A9 61`. The insert advances the byte column by one for a two-byte
character, so the next insert lands inside its encoding. -/
theorem C7_multibyte_insert_splits_encoding :
    insertChars (newEditor [] [[]]) [0xE9] = some ⟨[], [[0xC3, 0xA9]], ⟨1, 0⟩⟩ ∧
    insertChars (newEditor [] [[]]) [0xE9, 0x61] = some ⟨[], [[0xC3, 0x61, 0xA9]], ⟨2, 0⟩⟩ ∧
    utf8 [0xE9, 0x61] = [0xC3, 0xA9, 0x61] ∧
    (∃ s : Session,
      runLoop (start (newEditor [] [[]]) 24 ⟨true, [], 0⟩) [chEvent 0xE9, chEvent 0x61]
        = .running s ∧
      s.e.content = [[0xC3, 0x61, 0xA9]] ∧ s.e.cursor = ⟨2, 0⟩ ∧
      s.e.content ≠ [utf8 [0xE9, 0x61]] ∧
      s.e.content.map List.length = [3]) :=
  ⟨rfl, rfl, rfl, _, rfl, rfl, rfl, by decide, rfl⟩

/-- C8: for every document and every positive number of visible rows, after each event
of every finite sequence of ArrowUp/ArrowDown events taken from the initial state, the
loop is still running and the cursor row lies in
`[startLine, startLine + visibleLines)`. (The bound `line_count ≥ visible_row_count` of
the claim is not needed.) -/
theorem C8_viewport_follows_vertical_moves (e : Editor) (height : Int) (d : Disk)
    (evs : List Event) (hv : 0 < height - statusLineHeight)
    (hev : ∀ ev ∈ evs, ev = keyEvent .KeyArrowUp ∨ ev = keyEvent .KeyArrowDown) :
    ∀ n : Nat, ∃ s : Session,
      runLoop (start e height d) (evs.take n) = .running s ∧
      s.visibleLines = height - statusLineHeight ∧
      s.startLine ≤ s.e.cursor.y ∧ s.e.cursor.y < s.startLine + s.visibleLines := by
  intro n
  obtain ⟨s, h1, h2⟩ := runLoop_vertical (height - statusLineHeight) (evs.take n)
    (start e height d) (start_verticalInv e height d hv)
    (fun ev h => hev ev (List.mem_of_mem_take h))
  exact ⟨s, h1, h2.2.1, h2.2.2.2.1, h2.2.2.2.2⟩

/-- C8 at a concrete input: three lines, two visible rows, Down, Down, Up, Up. -/
theorem C8_viewport_follows_vertical_moves_witness :
    (0 : Int) < 3 - statusLineHeight ∧
    ∀ n : Nat, ∃ s : Session,
      runLoop (start (newEditor [] [[97], [98], [99]]) 3 ⟨true, [], 0⟩)
        (([keyEvent .KeyArrowDown, keyEvent .KeyArrowDown, keyEvent .KeyArrowUp,
          keyEvent .KeyArrowUp] : List Event).take n) = .running s ∧
      s.visibleLines = 3 - statusLineHeight ∧
      s.startLine ≤ s.e.cursor.y ∧ s.e.cursor.y < s.startLine + s.visibleLines :=
  ⟨by decide, C8_viewport_follows_vertical_moves (newEditor [] [[97], [98], [99]]) 3
    ⟨true, [], 0⟩ _ (by decide) (by
      intro ev hev
      simp only [List.mem_cons, List.mem_singleton, List.not_mem_nil, or_false] at hev
      rcases hev with rfl | rfl | rfl | rfl
      · exact Or.inr rfl
      · exact Or.inr rfl
      · exact Or.inl rfl
      · exact Or.inl rfl)⟩

/-- C9 (fails on the code): with one visible row, a KeyEnter event taken from the initial
state on the document `[""]` moves the cursor to row 1 and leaves `startLine` at 0, so
the cursor row is outside `[startLine, startLine + visibleLines) = [0, 1)`; with three
visible rows, three KeyEnter events leave the cursor on row 3 and `startLine` at 0. Enter
moves the cursor row without the viewport following. -/
theorem C9_enter_moves_cursor_out_of_viewport :
    (∃ s : Session,
      runLoop (start (newEditor [] [[]]) 2 ⟨true, [], 0⟩) [keyEvent .KeyEnter] = .running s ∧
      s.e.cursor.y = 1 ∧ s.startLine = 0 ∧ s.visibleLines = 1 ∧ ¬ CursorVisible s) ∧
    (∃ s : Session,
      runLoop (start (newEditor [] [[]]) 4 ⟨true, [], 0⟩)
        [keyEvent .KeyEnter, keyEvent .KeyEnter, keyEvent .KeyEnter] = .running s ∧
      s.e.cursor.y = 3 ∧ s.startLine = 0 ∧ s.visibleLines = 3 ∧ ¬ CursorVisible s) :=
  ⟨⟨_, rfl, rfl, rfl, rfl, by decide⟩, ⟨_, rfl, rfl, rfl, rfl, by decide⟩⟩

/-- C10: in every state reached from the initial state by a finite sequence of events,
`startLine` is at least 0; and in every such state of the running loop an ArrowDown event
polled in the main loop is handled without a panic, and whenever an ArrowDown event
raises `startLine` the new value is at most `max(0, len(content) - visibleLines)`. -/
theorem C10_viewport_bounds :
    (∀ (e : Editor) (height : Int) (d : Disk) (evs : List Event) (s : Session),
      (runLoop (start e height d) evs).session? = some s → 0 ≤ s.startLine) ∧
    (∀ (e : Editor) (height : Int) (d : Disk) (evs : List Event) (s : Session),
      runLoop (start e height d) evs = .running s →
        (s.pending = none → step s (keyEvent .KeyArrowDown) = .running (arrowDown s)) ∧
        (∀ s' : Session, step s (keyEvent .KeyArrowDown) = .running s' →
          s.startLine < s'.startLine →
          s'.startLine ≤ max 0 ((s'.e.content.length : Int) - s'.visibleLines))) := by
  have h0 : ∀ (e : Editor) (height : Int) (d : Disk), 0 ≤ (start e height d).startLine :=
    fun e height d => le_refl _
  refine ⟨fun e height d evs s h => runLoop_startLine evs _ (h0 e height d) s h, ?_⟩
  intro e height d evs s h
  have hs : 0 ≤ s.startLine :=
    runLoop_startLine evs _ (h0 e height d) s (by rw [h]; rfl)
  refine ⟨fun hp => step_arrowDown s hp hs, ?_⟩
  intro s' hstep hlt
  exact le_trans (step_bound s s' _ hstep hlt) (le_max_right _ _)

/-- C10 at a concrete input: three lines, one visible row; ArrowDown brings `startLine`
to 1, and a second ArrowDown raises it to 2, which is `max(0, 3 - 1)`. -/
theorem C10_viewport_bounds_witness :
    runLoop (start (newEditor [] [[97], [98], [99]]) 2 ⟨true, [], 0⟩) [keyEvent .KeyArrowDown]
      = .running ⟨⟨[], [[97], [98], [99]], ⟨0, 1⟩⟩, 1, 1, ⟨true, [], 0⟩, none⟩ ∧
    (0 : Int) ≤ 1 ∧
    step ⟨⟨[], [[97], [98], [99]], ⟨0, 1⟩⟩, 1, 1, ⟨true, [], 0⟩, none⟩ (keyEvent .KeyArrowDown)
      = .running ⟨⟨[], [[97], [98], [99]], ⟨0, 2⟩⟩, 2, 1, ⟨true, [], 0⟩, none⟩ ∧
    (2 : Int) ≤ max 0 (((3 : Nat) : Int) - 1) :=
  ⟨rfl,
   C10_viewport_bounds.1 (newEditor [] [[97], [98], [99]]) 2 ⟨true, [], 0⟩
     [keyEvent .KeyArrowDown] ⟨⟨[], [[97], [98], [99]], ⟨0, 1⟩⟩, 1, 1, ⟨true, [], 0⟩, none⟩ rfl,
   (C10_viewport_bounds.2 (newEditor [] [[97], [98], [99]]) 2 ⟨true, [], 0⟩
     [keyEvent .KeyArrowDown] ⟨⟨[], [[97], [98], [99]], ⟨0, 1⟩⟩, 1, 1, ⟨true, [], 0⟩, none⟩
     rfl).1 rfl,
   (C10_viewport_bounds.2 (newEditor [] [[97], [98], [99]]) 2 ⟨true, [], 0⟩
     [keyEvent .KeyArrowDown] ⟨⟨[], [[97], [98], [99]], ⟨0, 1⟩⟩, 1, 1, ⟨true, [], 0⟩, none⟩
     rfl).2 ⟨⟨[], [[97], [98], [99]], ⟨0, 2⟩⟩, 2, 1, ⟨true, [], 0⟩, none⟩ rfl (by decide)⟩

/-- C11: for an in-bounds cursor `(x, y)` in the main loop (no confirmation awaited, first
visible row not negative), ArrowRight is handled without a panic and gives `(x+1, y)` if
`x < len(line y)`, otherwise `(0, y+1)` if a next line exists, otherwise the same cursor;
ArrowLeft is handled without a panic and gives `(x-1, y)` if `x > 0`, otherwise
`(len(line y-1), y-1)` if a previous line exists, otherwise the same cursor; in all cases
the document is unchanged and the resulting cursor is in bounds. -/
theorem C11_horizontal_moves (s : Session) (hp : s.pending = none) (hs : 0 ≤ s.startLine)
    (hb : InBounds s.e) :
    (∃ s' : Session, step s (keyEvent .KeyArrowRight) = .running s' ∧
      s'.e.content = s.e.content ∧ InBounds s'.e ∧
      (s.e.cursor.x < ((s.e.content.getD s.e.cursor.y.toNat []).length : Int) →
        s'.e.cursor = ⟨s.e.cursor.x + 1, s.e.cursor.y⟩) ∧
      (¬ s.e.cursor.x < ((s.e.content.getD s.e.cursor.y.toNat []).length : Int) →
        s.e.cursor.y + 1 < (s.e.content.length : Int) → s'.e.cursor = ⟨0, s.e.cursor.y + 1⟩) ∧
      (¬ s.e.cursor.x < ((s.e.content.getD s.e.cursor.y.toNat []).length : Int) →
        ¬ s.e.cursor.y + 1 < (s.e.content.length : Int) → s'.e.cursor = s.e.cursor)) ∧
    (∃ s' : Session, step s (keyEvent .KeyArrowLeft) = .running s' ∧
      s'.e.content = s.e.content ∧ InBounds s'.e ∧
      (0 < s.e.cursor.x → s'.e.cursor = ⟨s.e.cursor.x - 1, s.e.cursor.y⟩) ∧
      (s.e.cursor.x = 0 → 0 < s.e.cursor.y → s'.e.cursor =
        ⟨((s.e.content.getD (s.e.cursor.y - 1).toNat []).length : Int), s.e.cursor.y - 1⟩) ∧
      (s.e.cursor.x = 0 → s.e.cursor.y = 0 → s'.e.cursor = s.e.cursor)) := by
  obtain ⟨eR, hR, hbR, hcR⟩ := arrowRight_inBounds s.e hb
  obtain ⟨eL, hL, hbL, hcL⟩ := arrowLeft_inBounds s.e hb
  have hstepR : step s (keyEvent .KeyArrowRight) = .running { s with e := eR, pending := none } := by
    rw [step_keyEvent s hp hs _ (by decide) (by decide), applyKey_arrowRight s eR hR]
  have hstepL : step s (keyEvent .KeyArrowLeft) = .running { s with e := eL, pending := none } := by
    rw [step_keyEvent s hp hs _ (by decide) (by decide), applyKey_arrowLeft s eL hL]
  refine ⟨⟨_, hstepR, hcR, hbR, ?_⟩, ⟨_, hstepL, hcL, hbL, ?_⟩⟩
  · obtain ⟨pre, line, post, x, hc, hcur, hx⟩ := hb.split
    obtain ⟨⟨fn, content, cursor⟩, st, vis, disk, pending⟩ := s
    simp only at hc hcur hR ⊢
    subst hc hcur
    rw [arrowRight_split] at hR
    have hR' := (Option.some.inj hR).symm
    subst hR'
    simp only [Int.toNat_ofNat, getD_mid]
    by_cases h1 : x < line.length
    · have h1' : (x : Int) < (line.length : Int) := by exact_mod_cast h1
      simp [h1, h1']
    · have h1' : ¬ (x : Int) < (line.length : Int) := by exact_mod_cast h1
      cases post with
      | nil => simp [h1, h1']
      | cons p ps =>
        simp only [h1, h1', if_false, ne_eq, reduceCtorEq, not_false_eq_true, if_true,
          false_implies, true_implies, true_and]
        refine ⟨fun _ => trivial, fun h => ?_⟩
        exfalso; apply h
        simp only [List.length_append, List.length_cons]; push_cast; omega
  · obtain ⟨pre, line, post, x, hc, hcur, hx⟩ := hb.split
    obtain ⟨⟨fn, content, cursor⟩, st, vis, disk, pending⟩ := s
    simp only at hc hcur hL ⊢
    subst hc hcur
    cases x with
    | succ x' =>
      have hcast : ((x' + 1 : Nat) : Int) = (x' : Int) + 1 := by push_cast; rfl
      rw [hcast, arrowLeft_succ] at hL
      have hL' := (Option.some.inj hL).symm
      subst hL'
      refine ⟨fun _ => ?_, fun h => ?_, fun h => ?_⟩
      · simp
      · exfalso; simp only at h; omega
      · exfalso; simp only at h; omega
    | zero =>
      rcases List.eq_nil_or_concat pre with hnil | ⟨pre', prev, hpre⟩
      · subst hnil
        have hL2 : arrowLeft ⟨fn, line :: post, ⟨0, 0⟩⟩ = some eL := by simpa using hL
        rw [arrowLeft_origin] at hL2
        have hL' := (Option.some.inj hL2).symm
        subst hL'
        refine ⟨fun h => ?_, fun _ h => ?_, fun _ _ => ?_⟩
        · simp at h
        · simp at h
        · simp
      · rw [List.concat_eq_append] at hpre
        subst hpre
        have hL2 : arrowLeft ⟨fn, pre' ++ prev :: line :: post, ⟨0, (pre'.length : Int) + 1⟩⟩
            = some eL := by simpa using hL
        rw [arrowLeft_join] at hL2
        have hL' := (Option.some.inj hL2).symm
        subst hL'
        refine ⟨fun h => ?_, fun _ _ => ?_, fun _ h => ?_⟩
        · simp at h
        · have e1 : ((((pre' ++ [prev]).length : Nat) : Int) - 1).toNat = pre'.length := by
            simp
          have e2 : (pre' ++ [prev]) ++ line :: post = pre' ++ prev :: line :: post := by simp
          simp only [e1, e2, getD_mid]
          simp
        · exfalso
          simp at h
          omega

/-- C11 at a concrete input: ArrowRight at the end of line 0 of `["a", "bc"]` and ArrowLeft
at the start of line 1. -/
theorem C11_horizontal_moves_witness :
    (∃ s' : Session,
      step ⟨⟨[], [[97], [98, 99]], ⟨1, 0⟩⟩, 0, 23, ⟨true, [], 0⟩, none⟩
        (keyEvent .KeyArrowRight) = .running s' ∧ s'.e.cursor = ⟨0, 1⟩) ∧
    (∃ s' : Session,
      step ⟨⟨[], [[97], [98, 99]], ⟨0, 1⟩⟩, 0, 23, ⟨true, [], 0⟩, none⟩
        (keyEvent .KeyArrowLeft) = .running s' ∧ s'.e.cursor = ⟨1, 0⟩) := by
  constructor
  · obtain ⟨s', h1, _, _, _, h2, _⟩ := (C11_horizontal_moves
      ⟨⟨[], [[97], [98, 99]], ⟨1, 0⟩⟩, 0, 23, ⟨true, [], 0⟩, none⟩ rfl (by decide) (by decide)).1
    exact ⟨s', h1, h2 (by decide) (by decide)⟩
  · obtain ⟨s', h1, _, _, _, h2, _⟩ := (C11_horizontal_moves
      ⟨⟨[], [[97], [98, 99]], ⟨0, 1⟩⟩, 0, 23, ⟨true, [], 0⟩, none⟩ rfl (by decide) (by decide)).2
    exact ⟨s', h1, h2 rfl (by decide)⟩

/-- C12: in every state left by a finite sequence of events taken from the state in which
the loop starts (an empty document replaced by one empty line), the document has at least
one line; and Backspace events polled in the main loop on an in-bounds cursor, as at the
start of the session, are all handled without a panic and leave at least one line. -/
theorem C12_document_never_empty :
    (∀ (e : Editor) (height : Int) (d : Disk) (evs : List Event) (s : Session),
      (runLoop (start e height d) evs).session? = some s → 1 ≤ s.e.content.length) ∧
    (∀ (s : Session) (evs : List Event), s.pending = none → 0 ≤ s.startLine → InBounds s.e →
      (∀ ev ∈ evs, ev = keyEvent .KeyBackspace ∨ ev = keyEvent .KeyBackspace2) →
      ∃ s' : Session, runLoop s evs = .running s' ∧ 1 ≤ s'.e.content.length) ∧
    (∀ (fn : GoString) (content : List GoString) (height : Int) (d : Disk),
      (start (newEditor fn content) height d).pending = none ∧
      0 ≤ (start (newEditor fn content) height d).startLine ∧
      InBounds (start (newEditor fn content) height d).e) := by
  refine ⟨fun e height d evs s h => runLoop_length evs _ (start_length e height d) s h, ?_, ?_⟩
  · intro s evs hp hs hb hev
    obtain ⟨s', h1, h2⟩ := runLoop_backspaces evs s hp hs hb hev
    exact ⟨s', h1, inBounds_length _ h2⟩
  · intro fn content height d
    exact ⟨rfl, le_refl _, start_inBounds fn content height d⟩

/-- C12 at a concrete input: an empty loaded document, then Enter and three Backspace
events, leave the one empty line. -/
theorem C12_document_never_empty_witness :
    runLoop (start (newEditor [] []) 24 ⟨true, [], 0⟩)
        [keyEvent .KeyEnter, keyEvent .KeyBackspace, keyEvent .KeyBackspace,
          keyEvent .KeyBackspace2]
      = .running ⟨⟨[], [[]], ⟨0, 0⟩⟩, 0, 23, ⟨true, [], 0⟩, none⟩ ∧
    1 ≤ ([[]] : List GoString).length ∧
    (∃ s' : Session,
      runLoop ⟨⟨[], [[], []], ⟨0, 1⟩⟩, 0, 23, ⟨true, [], 0⟩, none⟩
        [keyEvent .KeyBackspace, keyEvent .KeyBackspace, keyEvent .KeyBackspace2]
        = .running s' ∧ 1 ≤ s'.e.content.length) :=
  ⟨rfl,
   C12_document_never_empty.1 (newEditor [] []) 24 ⟨true, [], 0⟩
     [keyEvent .KeyEnter, keyEvent .KeyBackspace, keyEvent .KeyBackspace,
       keyEvent .KeyBackspace2]
     ⟨⟨[], [[]], ⟨0, 0⟩⟩, 0, 23, ⟨true, [], 0⟩, none⟩ rfl,
   C12_document_never_empty.2.1 ⟨⟨[], [[], []], ⟨0, 1⟩⟩, 0, 23, ⟨true, [], 0⟩, none⟩
     [keyEvent .KeyBackspace, keyEvent .KeyBackspace, keyEvent .KeyBackspace2]
     rfl (by decide) (by decide) (by
      intro ev hev
      simp only [List.mem_cons, List.mem_singleton, List.not_mem_nil, or_false] at hev
      rcases hev with rfl | rfl | rfl
      · exact Or.inl rfl
      · exact Or.inl rfl
      · exact Or.inr rfl)⟩

/-- C17: for a state of the main loop with an in-bounds cursor, every key event other
than ArrowUp/ArrowDown is handled without a panic and leaves the cursor in bounds of the
resulting document: the loop goes on, or ends on Ctrl-Q, or ends on a failed save with
Ctrl-S; the same holds for the event polled at the confirmation prompt. ArrowUp and
ArrowDown with the row in range are handled without a panic, keep `0 ≤ y < len(content)`
and leave `x` and the document unchanged. -/
theorem C17_bounds_preserved :
    (∀ (s : Session) (ev : Event), s.pending = none → 0 ≤ s.startLine → InBounds s.e →
      ev.Typ = .EventKey → ev.Key ≠ .KeyArrowUp → ev.Key ≠ .KeyArrowDown →
      ∃ s' : Session, InBounds s'.e ∧
        (step s ev = .running s' ∨ (ev.Key = .KeyCtrlQ ∧ step s ev = .terminated s') ∨
          (ev.Key = .KeyCtrlS ∧ step s ev = .failed s'))) ∧
    (∀ (s : Session) (ev1 ev2 : Event), s.pending = some ev1 → InBounds s.e →
      ev1.Key ≠ .KeyArrowUp → ev1.Key ≠ .KeyArrowDown →
      ∃ s' : Session, InBounds s'.e ∧
        (step s ev2 = .running s' ∨ step s ev2 = .terminated s')) ∧
    (∀ (s : Session) (k : Key), s.pending = none → 0 ≤ s.startLine → 0 ≤ s.e.cursor.y →
      s.e.cursor.y < (s.e.content.length : Int) → (k = .KeyArrowUp ∨ k = .KeyArrowDown) →
      ∃ s' : Session, step s (keyEvent k) = .running s' ∧ s'.e.content = s.e.content ∧
        s'.e.cursor.x = s.e.cursor.x ∧ 0 ≤ s'.e.cursor.y ∧
        s'.e.cursor.y < (s'.e.content.length : Int)) := by
  refine ⟨?_, ?_, ?_⟩
  · intro s ev hp hs hb ht h1 h2
    obtain ⟨s', hb', _, h⟩ := step_inBounds s ev hp hs hb ht h1 h2
    exact ⟨s', hb', h⟩
  · intro s ev1 ev2 hp hb h1 h2
    unfold step
    rw [hp]
    simp only
    by_cases hq : ev2.Typ = .EventKey ∧ ev2.Ch = 113
    · rw [if_pos hq]
      exact ⟨{ s with pending := none }, hb, Or.inr rfl⟩
    · rw [if_neg hq]
      obtain ⟨s', h, hb', _, _⟩ := applyKey_inBounds s ev1 h1 h2 hb
      exact ⟨s', hb', Or.inl h⟩
  · intro s k hp hs h0 h1 hk
    rcases hk with rfl | rfl
    · obtain ⟨a, b, c, d⟩ := arrowUp_row s h0 h1
      exact ⟨_, step_arrowUp s hp hs, a, b, c, by rw [a]; exact d⟩
    · obtain ⟨a, b, c, d⟩ := arrowDown_row s h0 h1
      exact ⟨_, step_arrowDown s hp hs, a, b, c, by rw [a]; exact d⟩

/-- C17 at a concrete input: a three-byte character typed at the end of `["a"]`, and
ArrowDown on `["ab", ""]` at `(2, 0)`. -/
theorem C17_bounds_preserved_witness :
    (∃ s' : Session, InBounds s'.e ∧
      step ⟨⟨[], [[97]], ⟨1, 0⟩⟩, 0, 23, ⟨true, [], 0⟩, none⟩ (chEvent 0x20AC) = .running s') ∧
    (∃ s' : Session,
      step ⟨⟨[], [[97, 98], []], ⟨2, 0⟩⟩, 0, 23, ⟨true, [], 0⟩, none⟩ (keyEvent .KeyArrowDown)
        = .running s' ∧ s'.e.cursor.x = 2 ∧ 0 ≤ s'.e.cursor.y ∧
        s'.e.cursor.y < (s'.e.content.length : Int)) := by
  constructor
  · obtain ⟨s', hb, h⟩ := C17_bounds_preserved.1
      ⟨⟨[], [[97]], ⟨1, 0⟩⟩, 0, 23, ⟨true, [], 0⟩, none⟩ (chEvent 0x20AC)
      rfl (by decide) (by decide) rfl (by decide) (by decide)
    rcases h with h | ⟨hk, _⟩ | ⟨hk, _⟩
    · exact ⟨s', hb, h⟩
    · exact absurd hk (by decide)
    · exact absurd hk (by decide)
  · obtain ⟨s', h, _, hx, h0, h1⟩ := C17_bounds_preserved.2.2
      ⟨⟨[], [[97, 98], []], ⟨2, 0⟩⟩, 0, 23, ⟨true, [], 0⟩, none⟩ .KeyArrowDown
      rfl (by decide) (by decide) (by decide) (Or.inr rfl)
    exact ⟨s', h, hx, h0, h1⟩

/-- C15 (fails on the code): on the document `["a"]` at `(0, 0)` the letter `q` followed
by ArrowRight leaves the loop running with the document `["qa"]` and the cursor at
`(1, 0)`: the declined confirmation inserts the letter, so lines and cursor are not
what they were before the two events. -/
theorem C15_declined_quit_changes_document :
    runLoop (start (newEditor [] [[97]]) 24 ⟨true, [], 0⟩)
        [chEvent 113, keyEvent .KeyArrowRight]
      = .running ⟨⟨[], [[113, 97]], ⟨1, 0⟩⟩, 0, 23, ⟨true, [], 0⟩, none⟩ ∧
    (start (newEditor [] [[97]]) 24 ⟨true, [], 0⟩).e.content = [[97]] ∧
    (start (newEditor [] [[97]]) 24 ⟨true, [], 0⟩).e.cursor = ⟨0, 0⟩ ∧
    ([[113, 97]] : List GoString) ≠ [[97]] ∧ (⟨1, 0⟩ : Cursor) ≠ ⟨0, 0⟩ :=
  ⟨rfl, rfl, rfl, by decide, by decide⟩

/-- C15 as amended: for a state of the main loop with an in-bounds cursor `(x, y)`, when
`q` is pressed and the next event is anything other than a key event with character `q`,
the loop is still running in its main phase and nothing of the document is lost: the
number of lines is the same, every line other than line `y` is unchanged, line `y` is the
old line with the letter `q` (byte 113) inserted at column `x` (removing that position
gives the old line back), the cursor is `(x+1, y)`, and the first visible row and the
file on disk are untouched. -/
theorem C15_declined_quit_keeps_session (s : Session) (e2 : Event) (hp : s.pending = none)
    (hs : 0 ≤ s.startLine) (hb : InBounds s.e) (h2 : ¬ (e2.Typ = .EventKey ∧ e2.Ch = 113)) :
    ∃ s' : Session, runLoop s [chEvent 113, e2] = .running s' ∧ s'.pending = none ∧
      s'.disk = s.disk ∧ s'.startLine = s.startLine ∧
      s'.e.content.length = s.e.content.length ∧
      (∀ i : Nat, i ≠ s.e.cursor.y.toNat → s'.e.content[i]? = s.e.content[i]?) ∧
      (∃ line : GoString, s.e.content[s.e.cursor.y.toNat]? = some line ∧
        s'.e.content[s.e.cursor.y.toNat]? =
          some (line.take s.e.cursor.x.toNat ++ 113 :: line.drop s.e.cursor.x.toNat) ∧
        (line.take s.e.cursor.x.toNat ++ 113 :: line.drop s.e.cursor.x.toNat).eraseIdx
          s.e.cursor.x.toNat = line) ∧
      s'.e.cursor = ⟨s.e.cursor.x + 1, s.e.cursor.y⟩ := by
  obtain ⟨pre, line, post, x, hc, hcur, hx⟩ := hb.split
  obtain ⟨⟨fn, content, cursor⟩, st, vis, disk, pending⟩ := s
  simp only at hp hs hc hcur
  subst hc hcur hp
  have h1 := step_q ⟨⟨fn, pre ++ line :: post, ⟨x, pre.length⟩⟩, st, vis, disk, none⟩ rfl hs
  have h3 := step_declined fn pre line post x hx st vis disk e2 h2
  have happ : line.take x ++ [113] ++ line.drop x = line.take x ++ 113 :: line.drop x := by
    simp
  refine ⟨⟨⟨fn, pre ++ (line.take x ++ [113] ++ line.drop x) :: post,
      ⟨(x : Int) + 1, (pre.length : Int)⟩⟩, st, vis, disk, none⟩,
    by simp only [runLoop, h1, h3], rfl, rfl, rfl, by simp, ?_, ?_, rfl⟩
  · intro i hi
    have hi' : i ≠ pre.length := by simpa using hi
    simp only
    rw [← set_mid pre line (line.take x ++ [113] ++ line.drop x) post]
    exact List.getElem?_set_ne (Ne.symm hi')
  · refine ⟨line, ?_, ?_, ?_⟩
    · simp only [Int.toNat_ofNat]; exact getElem?_mid pre line post
    · simp only [Int.toNat_ofNat, ← happ]; exact getElem?_mid pre _ post
    · simp only [Int.toNat_ofNat, ← happ]
      have hl : (line.take x).length = x := by rw [List.length_take]; omega
      have key := eraseIdx_inserted (line.take x) 113 (line.drop x)
      rw [hl] at key
      rw [key, List.take_append_drop]

/-- C15 as amended, at a concrete input: `q` then ArrowRight on `["a"]` at `(0, 0)` gives
`["qa"]` at `(1, 0)`. -/
theorem C15_declined_quit_keeps_session_witness :
    InBounds (⟨[], [[97]], ⟨0, 0⟩⟩ : Editor) ∧
    ∃ s' : Session,
      runLoop ⟨⟨[], [[97]], ⟨0, 0⟩⟩, 0, 23, ⟨true, [], 0⟩, none⟩
        [chEvent 113, keyEvent .KeyArrowRight] = .running s' ∧
      s'.pending = none ∧ s'.e.content.length = 1 ∧
      s'.e.content[0]? = some [113, 97] ∧ s'.e.cursor = ⟨0 + 1, 0⟩ := by
  refine ⟨by decide, ?_⟩
  obtain ⟨s', h1, h2, _, _, h3, _, ⟨line, hl, hl', _⟩, h4⟩ := C15_declined_quit_keeps_session
    ⟨⟨[], [[97]], ⟨0, 0⟩⟩, 0, 23, ⟨true, [], 0⟩, none⟩ (keyEvent .KeyArrowRight)
    rfl (by decide) (by decide) (by decide)
  have hline : line = [97] := by
    have : ([[97]] : List GoString)[(0 : Int).toNat]? = some [97] := rfl
    exact Option.some.inj (hl.symm.trans this)
  subst hline
  exact ⟨s', h1, h2, h3, hl', h4⟩

/-- C16: from a state of the main loop (first visible row not negative, as in every
reachable state), a Ctrl-Q key event ends the session at once with a nil error, the
session state untouched (same document, no call of `save`); a `q` key event changes
nothing and makes the loop poll one further event, on which the session ends (nil error,
state untouched) if and only if that event is a key event with character `q`; otherwise
the loop does not end with an error either, and if it goes on it is back in its main
phase. -/
theorem C16_quit_state_machine (s : Session) (hp : s.pending = none) (hs : 0 ≤ s.startLine) :
    (∀ c : Nat, step s ⟨.EventKey, .KeyCtrlQ, c⟩ = .terminated s) ∧
    step s (chEvent 113) = .running { s with pending := some (chEvent 113) } ∧
    (∀ e2 : Event,
      ((e2.Typ = .EventKey ∧ e2.Ch = 113) →
        step { s with pending := some (chEvent 113) } e2 = .terminated s) ∧
      ((∃ s', step { s with pending := some (chEvent 113) } e2 = .terminated s') ↔
        (e2.Typ = .EventKey ∧ e2.Ch = 113)) ∧
      (∀ s', step { s with pending := some (chEvent 113) } e2 ≠ .failed s') ∧
      (∀ s', step { s with pending := some (chEvent 113) } e2 = .running s' →
        s'.pending = none ∧ s'.disk = s.disk)) := by
  refine ⟨fun c => step_ctrlQ s hp hs c, step_q s hp hs, ?_⟩
  intro e2
  have hterm : (e2.Typ = .EventKey ∧ e2.Ch = 113) →
      step { s with pending := some (chEvent 113) } e2 = .terminated s := by
    intro hq
    unfold step
    simp only [if_pos hq]
    obtain ⟨e, st, vis, disk, pending⟩ := s
    simp only at hp
    subst hp
    rfl
  have hdecl : ¬ (e2.Typ = .EventKey ∧ e2.Ch = 113) →
      step { s with pending := some (chEvent 113) } e2
        = applyKey { s with pending := some (chEvent 113) } (chEvent 113) := by
    intro hq
    unfold step
    simp only [if_neg hq]
  refine ⟨hterm, ⟨?_, fun hq => ⟨s, hterm hq⟩⟩, ?_, ?_⟩
  · rintro ⟨s', h⟩
    by_contra hq
    rw [hdecl hq] at h
    rcases applyKey_cases { s with pending := some (chEvent 113) } (chEvent 113) with
      h' | ⟨s2, h', _⟩
    · rw [h'] at h; cases h
    · rw [h'] at h; cases h
  · intro s' h
    by_cases hq : e2.Typ = .EventKey ∧ e2.Ch = 113
    · rw [hterm hq] at h; cases h
    · rw [hdecl hq] at h
      rcases applyKey_cases { s with pending := some (chEvent 113) } (chEvent 113) with
        h' | ⟨s2, h', _⟩
      · rw [h'] at h; cases h
      · rw [h'] at h; cases h
  · intro s' h
    by_cases hq : e2.Typ = .EventKey ∧ e2.Ch = 113
    · rw [hterm hq] at h; cases h
    · rw [hdecl hq] at h
      rcases applyKey_cases { s with pending := some (chEvent 113) } (chEvent 113) with
        h' | ⟨s2, h', hp2, hd2⟩
      · rw [h'] at h; cases h
      · rw [h'] at h
        cases h
        exact ⟨hp2, hd2⟩

/-- C16 at a concrete input: Ctrl-Q, and `q` twice, on the document `["a"]`. -/
theorem C16_quit_state_machine_witness :
    step ⟨⟨[], [[97]], ⟨0, 0⟩⟩, 0, 23, ⟨true, [], 0⟩, none⟩ (keyEvent .KeyCtrlQ)
      = .terminated ⟨⟨[], [[97]], ⟨0, 0⟩⟩, 0, 23, ⟨true, [], 0⟩, none⟩ ∧
    runLoop ⟨⟨[], [[97]], ⟨0, 0⟩⟩, 0, 23, ⟨true, [], 0⟩, none⟩ [chEvent 113, chEvent 113]
      = .terminated ⟨⟨[], [[97]], ⟨0, 0⟩⟩, 0, 23, ⟨true, [], 0⟩, none⟩ := by
  have h := C16_quit_state_machine ⟨⟨[], [[97]], ⟨0, 0⟩⟩, 0, 23, ⟨true, [], 0⟩, none⟩
    rfl (by decide)
  refine ⟨h.1 0, ?_⟩
  have h1 := h.2.1
  have h2 := (h.2.2 (chEvent 113)).1 ⟨rfl, rfl⟩
  simp only [runLoop, h1, h2]

/-- C19: for a state of the main loop with an in-bounds cursor and every second event
`e2` that is not a key event with character `q`, the `q` key event followed by `e2` is
handled without a panic and leaves the session with exactly the editor that the
character insert of `q` alone produces (`q` inserted at the cursor, column advanced by 1),
with the first visible row, the file and the phase as before: `e2` has no effect. -/
theorem C19_declined_quit_inserts_q (s : Session) (e2 : Event) (hp : s.pending = none)
    (hs : 0 ≤ s.startLine) (hb : InBounds s.e) (h2 : ¬ (e2.Typ = .EventKey ∧ e2.Ch = 113)) :
    ∃ (e' : Editor) (line : GoString),
      editKey s.e (chEvent 113) = some e' ∧
      runLoop s [chEvent 113, e2] = .running { s with e := e' } ∧
      s.e.content[s.e.cursor.y.toNat]? = some line ∧
      e'.content = s.e.content.set s.e.cursor.y.toNat
        (line.take s.e.cursor.x.toNat ++ 113 :: line.drop s.e.cursor.x.toNat) ∧
      e'.cursor = ⟨s.e.cursor.x + 1, s.e.cursor.y⟩ := by
  obtain ⟨pre, line, post, x, hc, hcur, hx⟩ := hb.split
  obtain ⟨⟨fn, content, cursor⟩, st, vis, disk, pending⟩ := s
  simp only at hp hs hc hcur
  subst hc hcur hp
  have h1 := step_q ⟨⟨fn, pre ++ line :: post, ⟨x, pre.length⟩⟩, st, vis, disk, none⟩ rfl hs
  have h3 := step_declined fn pre line post x hx st vis disk e2 h2
  have hins := insertAtCursor_split fn pre line post x [113] hx
  have hrune : runeToString 113 = [113] := by decide
  refine ⟨⟨fn, pre ++ (line.take x ++ [113] ++ line.drop x) :: post,
      ⟨(x : Int) + 1, (pre.length : Int)⟩⟩, line, ?_, by simp only [runLoop, h1, h3], ?_, ?_, rfl⟩
  · simp only [editKey, chEvent, hrune]
    simpa using hins
  · simp only [Int.toNat_ofNat]; exact getElem?_mid pre line post
  · simp only [Int.toNat_ofNat, set_mid]
    simp

/-- C19 at a concrete input: `q` then Backspace at `(1, 0)` of `["ab"]` gives `["aqb"]`
at `(2, 0)`; the Backspace is dropped. -/
theorem C19_declined_quit_inserts_q_witness :
    InBounds (⟨[], [[97, 98]], ⟨1, 0⟩⟩ : Editor) ∧
    runLoop ⟨⟨[], [[97, 98]], ⟨1, 0⟩⟩, 0, 23, ⟨true, [], 0⟩, none⟩
        [chEvent 113, keyEvent .KeyBackspace]
      = .running ⟨⟨[], [[97, 113, 98]], ⟨2, 0⟩⟩, 0, 23, ⟨true, [], 0⟩, none⟩ := by
  refine ⟨by decide, ?_⟩
  obtain ⟨e', line, h1, h2, _, _, _⟩ := C19_declined_quit_inserts_q
    ⟨⟨[], [[97, 98]], ⟨1, 0⟩⟩, 0, 23, ⟨true, [], 0⟩, none⟩ (keyEvent .KeyBackspace)
    rfl (by decide) (by decide) (by decide)
  have he : e' = ⟨[], [[97, 113, 98]], ⟨2, 0⟩⟩ := by
    have : editKey ⟨[], [[97, 98]], ⟨1, 0⟩⟩ (chEvent 113)
        = some ⟨[], [[97, 113, 98]], ⟨2, 0⟩⟩ := rfl
    exact Option.some.inj (h1.symm.trans this)
  rw [h2, he]

/-- C18: with `text` the lines joined by `'\n'` and `cursorOff` the offset
`x + sum over i < y of (len(line i) + 1)`, for a state of the main loop with an in-bounds
cursor: the character insert of a single-byte character `c` (code point 1 to 127) other
than newline turns the text into the text with `c` inserted at the offset and advances
the offset by 1 (for `c` other than `q` this is what the event does in the main loop); KeyEnter turns the text
into the text with `'\n'` inserted at the offset and advances the offset by 1; Backspace
with offset `> 0` removes position `offset - 1` from the text and decreases the offset by
1, and with offset `0` changes nothing. No event of these panics. -/
theorem C18_flat_buffer_refinement (s : Session) (hp : s.pending = none)
    (hs : 0 ≤ s.startLine) (hb : InBounds s.e) :
    (∀ c : Nat, c ≠ 0 → c ≠ 10 → c < 128 →
      ∃ e' : Editor, editKey s.e (chEvent c) = some e' ∧
        (c ≠ 113 → step s (chEvent c) = .running { s with e := e' }) ∧
        text e'.content = flatInsert (text s.e.content) (cursorOff s.e) c ∧
        cursorOff e' = cursorOff s.e + 1) ∧
    (∃ e' : Editor, step s (keyEvent .KeyEnter) = .running { s with e := e' } ∧
      text e'.content = flatInsert (text s.e.content) (cursorOff s.e) 10 ∧
      cursorOff e' = cursorOff s.e + 1) ∧
    (∀ k : Key, (k = .KeyBackspace ∨ k = .KeyBackspace2) →
      ∃ e' : Editor, step s (keyEvent k) = .running { s with e := e' } ∧
        (0 < cursorOff s.e →
          text e'.content = flatRemove (text s.e.content) (cursorOff s.e - 1) ∧
          cursorOff e' = cursorOff s.e - 1) ∧
        (cursorOff s.e = 0 → e' = s.e)) := by
  obtain ⟨pre, line, post, x, hc, hcur, hx⟩ := hb.split
  obtain ⟨⟨fn, content, cursor⟩, st, vis, disk, pending⟩ := s
  simp only at hp hs hc hcur
  subst hc hcur hp
  have hlt : (line.take x).length = x := by rw [List.length_take]; omega
  refine ⟨?_, ?_, ?_⟩
  · intro c h0 h10 h128
    have hed := editKey_ch_split fn pre line post x c hx h0 h10 h128
    refine ⟨⟨fn, pre ++ (line.take x ++ c :: line.drop x) :: post,
      ⟨(x : Int) + 1, (pre.length : Int)⟩⟩, hed, ?_, ?_, ?_⟩
    · intro hq
      rw [step_chEvent _ rfl hs c hq, applyKey_ch _ c _ hed]
    · simp only [text_mk]
      rw [flatInsert_at (fileBytes pre ++ line.take x) (line.drop x ++ restText post) _ _ c
        (append_split _ _ _ x)
        (by rw [cursorOff_mk, List.length_append, hlt]; omega)]
      simp
    · have h1 := cursorOff_mk fn pre (line.take x ++ c :: line.drop x) post (x + 1)
      have hcast : ((x + 1 : Nat) : Int) = (x : Int) + 1 := by push_cast; rfl
      rw [hcast] at h1
      rw [h1, cursorOff_mk]
      omega
  · have hen := enterKey_split fn pre line post x hx
    refine ⟨⟨fn, pre ++ line.take x :: line.drop x :: post, ⟨0, (pre.length : Int) + 1⟩⟩,
      ?_, ?_, ?_⟩
    · rw [step_keyEvent _ rfl hs .KeyEnter (by decide) (by decide), applyKey_enter _ _ hen]
    · have e1 : pre ++ line.take x :: line.drop x :: post
          = (pre ++ [line.take x]) ++ line.drop x :: post := by simp
      simp only [e1, text_mk]
      rw [flatInsert_at (fileBytes pre ++ line.take x) (line.drop x ++ restText post) _ _ 10
        (append_split _ _ _ x)
        (by rw [cursorOff_mk, List.length_append, hlt]; omega)]
      simp [fileBytes_append, fileBytes_cons, fileBytes]
    · have h1 := cursorOff_mk fn (pre ++ [line.take x]) (line.drop x) post 0
      have e1 : (pre ++ [line.take x]) ++ line.drop x :: post
          = pre ++ line.take x :: line.drop x :: post := by simp
      have e2 : (((pre ++ [line.take x]).length : Nat) : Int) = (pre.length : Int) + 1 := by
        simp
      rw [e1, e2] at h1
      simp only [Nat.cast_zero] at h1
      rw [h1, cursorOff_mk, fileBytes_append, List.length_append]
      simp [fileBytes, hlt]
      omega
  · intro k hk
    have hk1 : k ≠ .KeyCtrlS := by rcases hk with rfl | rfl <;> decide
    have hk2 : k ≠ .KeyCtrlQ := by rcases hk with rfl | rfl <;> decide
    cases x with
    | succ x' =>
      have hbs := backspace_delete fn pre line post x' hx
      have hcast : ((x' + 1 : Nat) : Int) = (x' : Int) + 1 := by push_cast; rfl
      rw [hcast]
      refine ⟨⟨fn, pre ++ line.eraseIdx x' :: post, ⟨(x' : Int), (pre.length : Int)⟩⟩,
        ?_, ?_, ?_⟩
      · rw [step_keyEvent _ rfl hs k hk1 hk2, applyKey_backspace _ k hk _ hbs]
      · intro _
        have hoff := cursorOff_mk fn pre line post (x' + 1)
        rw [hcast] at hoff
        have hlt' : (line.take x').length = x' := by rw [List.length_take]; omega
        have hx' : x' < line.length := by omega
        have hline : line = line.take x' ++ line.get ⟨x', hx'⟩ :: line.drop (x' + 1) := by
          have hd : line.drop x' = line.get ⟨x', hx'⟩ :: line.drop (x' + 1) := by simp
          rw [← hd, List.take_append_drop]
        have h3 : line ++ restText post = line.take x' ++
            (line.get ⟨x', hx'⟩ :: (line.drop (x' + 1) ++ restText post)) := by
          calc line ++ restText post
              = (line.take x' ++ line.get ⟨x', hx'⟩ :: line.drop (x' + 1)) ++ restText post := by
                rw [← hline]
            _ = _ := by rw [List.append_assoc]; rfl
        constructor
        · simp only [text_mk, List.eraseIdx_eq_take_drop_succ]
          rw [flatRemove_at (fileBytes pre ++ line.take x') (line.drop (x' + 1) ++ restText post)
            _ _ (line.get ⟨x', hx'⟩)
            (by rw [h3, List.append_assoc])
            (by simp only [hoff, List.length_append, hlt']; omega)]
          simp
        · simp only [hoff, cursorOff_mk]
          omega
      · intro h0
        have hoff := cursorOff_mk fn pre line post (x' + 1)
        rw [hcast] at hoff
        simp only [hoff] at h0
        omega
    | zero =>
      rcases List.eq_nil_or_concat pre with hnil | ⟨pre', prev, hpre⟩
      · subst hnil
        have hbs := backspace_origin fn (line :: post)
        refine ⟨⟨fn, line :: post, ⟨0, 0⟩⟩, ?_, ?_, ?_⟩
        · rw [step_keyEvent _ rfl hs k hk1 hk2]
          exact applyKey_backspace _ k hk _ hbs
        · intro h0
          simp [cursorOff, off] at h0
        · intro _; rfl
      · rw [List.concat_eq_append] at hpre
        subst hpre
        have hbs := backspace_join fn pre' prev line post
        have hlen : (((pre' ++ [prev]).length : Nat) : Int) = (pre'.length : Int) + 1 := by simp
        have hcont : (pre' ++ [prev]) ++ line :: post = pre' ++ prev :: line :: post := by simp
        have hoff := cursorOff_mk fn (pre' ++ [prev]) line post 0
        rw [hlen, hcont] at hoff ⊢
        simp only [Nat.cast_zero] at hoff ⊢
        have hfb : (fileBytes (pre' ++ [prev])).length
            = (fileBytes pre').length + prev.length + 1 := by
          simp [fileBytes_append, fileBytes]
          omega
        refine ⟨⟨fn, pre' ++ (prev ++ line) :: post,
          ⟨(prev.length : Int), (pre'.length : Int)⟩⟩, ?_, ?_, ?_⟩
        · rw [step_keyEvent _ rfl hs k hk1 hk2, applyKey_backspace _ k hk _ hbs]
        · intro _
          constructor
          · simp only [text_mk]
            rw [flatRemove_at (fileBytes pre' ++ prev) (line ++ restText post) _ _ 10
              (by simp [restText])
              (by simp only [hoff, hfb, List.length_append]; omega)]
            simp
          · simp only [hoff, hfb, cursorOff_mk]
            omega
        · intro h0
          simp only [hoff, hfb] at h0
          omega

/-- C18 at a concrete input: `x` typed at `(1, 1)` of `["ab", "cd"]`. -/
theorem C18_flat_buffer_refinement_witness :
    InBounds (⟨[], [[97, 98], [99, 100]], ⟨1, 1⟩⟩ : Editor) ∧
    ∃ e' : Editor,
      step ⟨⟨[], [[97, 98], [99, 100]], ⟨1, 1⟩⟩, 0, 23, ⟨true, [], 0⟩, none⟩ (chEvent 120)
        = .running ⟨e', 0, 23, ⟨true, [], 0⟩, none⟩ ∧
      text e'.content = flatInsert (text [[97, 98], [99, 100]]) 4 120 ∧
      cursorOff e' = 4 + 1 := by
  refine ⟨by decide, ?_⟩
  obtain ⟨e', _, h1, h2, h3⟩ := (C18_flat_buffer_refinement
    ⟨⟨[], [[97, 98], [99, 100]], ⟨1, 1⟩⟩, 0, 23, ⟨true, [], 0⟩, none⟩
    rfl (by decide) (by decide)).1 120 (by decide) (by decide) (by decide)
  exact ⟨e', h1 (by decide), h2, h3⟩

/-- C13 (fails on the code): the file content `"a\r\n"` ends with a newline, `readFile`
returns the one line `"a"` without an error, and the bytes written for it are `"a\n"`:
the scanner drops the carriage return before a newline. And for the file content of
65536 bytes `a` followed by a newline `readFile` returns no line and the error
`ErrTooLong`, so the bytes `save` would write are not the original ones either. -/
theorem C13_crlf_file_not_restored :
    (EndsWithNewline [97, 13, 10] ∧
      readFile (some [97, 13, 10]) = ([[97]], none) ∧
      fileBytes (readFile (some [97, 13, 10])).1 = [97, 10] ∧
      fileBytes (readFile (some [97, 13, 10])).1 ≠ [97, 13, 10] ∧
      save (newEditor [] (readFile (some [97, 13, 10])).1) ⟨true, [97, 13, 10], 0⟩
        = some ⟨true, [97, 10], 1⟩) ∧
    (EndsWithNewline (List.replicate 65536 97 ++ [10]) ∧
      readFile (some (List.replicate 65536 97 ++ [10])) = ([], some .tooLong) ∧
      fileBytes (readFile (some (List.replicate 65536 97 ++ [10]))).1
        ≠ List.replicate 65536 97 ++ [10]) := by
  have hlen : ([] ++ List.replicate 65536 97 : GoString).length = maxScanTokenSize := by
    rw [List.nil_append, List.length_replicate]
    rfl
  have hlong : readFile (some (List.replicate 65536 97 ++ [10])) = ([], some .tooLong) := by
    have hmem : (10 : Nat) ∉ List.replicate 65536 97 := by
      intro h
      have := List.eq_of_mem_replicate h
      omega
    show scanLines (List.replicate 65536 97 ++ [10]) [] = ([], some .tooLong)
    rw [scanLines_bytes [10] (List.replicate 65536 97) [] hmem (le_of_eq hlen)]
    exact scanLines_full _ _ (le_of_eq hlen.symm)
  refine ⟨⟨rfl, rfl, rfl, by decide, rfl⟩, List.getLast?_concat _, hlong, ?_⟩
  rw [hlong]
  intro h
  have h' := congrArg List.length h
  rw [List.length_append, List.length_replicate] at h'
  exact absurd h' (by decide)

/-- C13 as amended: for every file content that ends with a newline character, in which
no newline is directly preceded by a carriage return and every line is shorter than the
scanner's token limit, `readFile` returns its lines without an error, and the bytes that
`Editor.save` (in the session, on Ctrl-S before any edit) and `writeFile` write for the
unmodified lines are exactly the original bytes. -/
theorem C13_load_then_save (data : GoString) (h1 : EndsWithNewline data) (h2 : NoCRLF data)
    (h3 : ShortLines data) :
    (readFile (some data)).2 = none ∧
    fileBytes (readFile (some data)).1 = data ∧
    (∀ (fn : GoString) (d : Disk), d.writable = true →
      ∃ d' : Disk, save (newEditor fn (readFile (some data)).1) d = some d' ∧ d'.data = data) ∧
    (∀ d : Disk, d.writable = true →
      ∃ d' : Disk, writeFile (readFile (some data)).1 d = some d' ∧ d'.data = data) ∧
    (∀ (fn : GoString) (height : Int) (d : Disk), d.writable = true →
      ∃ s' : Session,
        step (start (newEditor fn (readFile (some data)).1) height d) (keyEvent .KeyCtrlS)
          = .running s' ∧
        s'.disk.data = data ∧ s'.e.content = (readFile (some data)).1) := by
  have hne : data ≠ [] := by
    intro h
    rw [h] at h1
    simp [EndsWithNewline] at h1
  have key := scanLines_roundtrip data [] (by simp) (by simpa using h2) (by simpa using h3)
    (fun h => absurd h hne) (fun _ => h1)
  simp only [List.nil_append] at key
  have hlines : (readFile (some data)).1 ≠ [] := by
    intro h
    have h' := key.2
    simp only [readFile] at h
    rw [h] at h'
    exact hne (by simpa [fileBytes] using h'.symm)
  refine ⟨key.1, key.2, ?_, ?_, ?_⟩
  · intro fn d hw
    refine ⟨{ d with data := fileBytes (readFile (some data)).1, saves := d.saves + 1 },
      by simp [save, hw, newEditor], ?_⟩
    exact key.2
  · intro d hw
    refine ⟨{ d with data := fileBytes (readFile (some data)).1 },
      by simp [writeFile, hw], ?_⟩
    exact key.2
  · intro fn height d hw
    have hc := start_content fn (readFile (some data)).1 height d hlines
    refine ⟨_, step_ctrlS (start (newEditor fn (readFile (some data)).1) height d) rfl
      (le_refl _) hw, ?_, hc⟩
    simp only [hc]
    exact key.2

/-- C13 as amended, at a concrete input: the file content `"ab\n\ncd\n"`. -/
theorem C13_load_then_save_witness :
    EndsWithNewline [97, 98, 10, 10, 99, 100, 10] ∧
    readFile (some [97, 98, 10, 10, 99, 100, 10]) = ([[97, 98], [], [99, 100]], none) ∧
    fileBytes (readFile (some [97, 98, 10, 10, 99, 100, 10])).1
      = [97, 98, 10, 10, 99, 100, 10] := by
  have hcrlf : NoCRLF [97, 98, 10, 10, 99, 100, 10] := by
    rintro ⟨a, b, h⟩
    have hmem : (13 : Nat) ∈ a ++ [13, 10] ++ b := by simp
    rw [h] at hmem
    simp at hmem
  have hshort : ShortLines [97, 98, 10, 10, 99, 100, 10] := by
    intro seg hseg _
    have := hseg.length_le
    simp only [List.length_cons, List.length_nil] at this
    simp only [maxScanTokenSize]
    omega
  exact ⟨rfl, rfl, (C13_load_then_save [97, 98, 10, 10, 99, 100, 10] rfl hcrlf hshort).2.1⟩

/-- C14: `writeFile` applied to the new-file document `[""]` writes exactly one newline
character, and `readFile` of that file yields `[""]` without an error; and for every
non-empty list of lines in which no line contains `'\n'` or `'\r'` and every line is
shorter than the scanner's token limit, `readFile` of the bytes written by `writeFile`
returns the same list of lines without an error. -/
theorem C14_save_then_load :
    (∀ d : Disk, d.writable = true →
      ∃ d' : Disk, writeFile [[]] d = some d' ∧ d'.data = [10] ∧
        readFile (some d'.data) = ([[]], none)) ∧
    (∀ (lines : List GoString) (d : Disk), lines ≠ [] →
      (∀ l ∈ lines, 10 ∉ l ∧ 13 ∉ l ∧ l.length < maxScanTokenSize) → d.writable = true →
      ∃ d' : Disk, writeFile lines d = some d' ∧ readFile (some d'.data) = (lines, none)) := by
  constructor
  · intro d hw
    exact ⟨{ d with data := fileBytes [[]] }, by simp [writeFile, hw], rfl, rfl⟩
  · intro lines d _ h hw
    refine ⟨{ d with data := fileBytes lines }, by simp [writeFile, hw], ?_⟩
    exact scanLines_fileBytes lines h

/-- C14 at a concrete input: the lines `["ab", "", "c"]`. -/
theorem C14_save_then_load_witness :
    ∃ d' : Disk, writeFile [[97, 98], [], [99]] ⟨true, [], 0⟩ = some d' ∧
      readFile (some d'.data) = ([[97, 98], [], [99]], none) :=
  C14_save_then_load.2 [[97, 98], [], [99]] ⟨true, [], 0⟩ (by decide)
    (by
      intro l hl
      simp only [List.mem_cons, List.mem_singleton, List.not_mem_nil, or_false] at hl
      rcases hl with rfl | rfl | rfl <;> simp [maxScanTokenSize])
    rfl

end NTE
